import Mathlib

/-!
Verification of the ProToken inference utilities (PT-DiT notebooks and
configuration) against their natural-language specification.

The relevant source code consists of:
* the PT-DiT inference notebook (`protoken_emb_distance_fn`,
  `aatype_emb_distance_fn`, `aatype_index_to_resname`,
  `resname_to_aatype_index`, `index_from_embedding`, `make_repaint_info`,
  the RePaint blending step of `run_infer`);
* the encoder/decoder YAML configuration (structure-module instantiations).

Real-valued NumPy/JAX arithmetic is embedded as exact real arithmetic over
`ℝ`; arrays become `List`s; fallible Python operations (out-of-range list
indexing, `list.index` on a missing element) return `Option`.
-/

namespace ProToken

/-! ## Generic first-minimum argmin (shallow embedding of `jnp.argmin`)

`jnp.argmin` returns the index of the first occurrence of the minimum
value along the reduction axis.  `minD l d` is the minimum of `l` with
default `d` for the empty list. -/

def minD {α : Type} [LinearOrder α] (l : List α) (d : α) : α :=
  l.foldr min d

def argminIdx {α : Type} [LinearOrder α] : List α → ℕ
  | [] => 0
  | a :: l => if minD l a < a then argminIdx l + 1 else 0

theorem minD_le_default {α : Type} [LinearOrder α] (l : List α) (d : α) :
    minD l d ≤ d := by
  induction l with
  | nil => exact le_refl d
  | cons a l ih => exact le_trans (min_le_right a (minD l d)) ih

theorem minD_le_mem {α : Type} [LinearOrder α] (l : List α) (d : α)
    (x : α) (hx : x ∈ l) : minD l d ≤ x := by
  induction l with
  | nil => cases hx
  | cons a l ih =>
    rcases List.mem_cons.mp hx with h | h
    · exact h ▸ min_le_left a (minD l d)
    · exact le_trans (min_le_right a (minD l d)) (ih h)

theorem minD_eq_or_mem {α : Type} [LinearOrder α] (l : List α) (d : α) :
    minD l d = d ∨ minD l d ∈ l := by
  induction l with
  | nil => exact Or.inl rfl
  | cons a l ih =>
    have hm : minD (a :: l) d = min a (minD l d) := rfl
    rcases le_total a (minD l d) with hle | hle
    · refine Or.inr ?_
      rw [hm, min_eq_left hle]
      exact List.mem_cons_self a l
    · rcases ih with h' | h'
      · exact Or.inl (by rw [hm, min_eq_right hle, h'])
      · refine Or.inr ?_
        rw [hm, min_eq_right hle]
        exact List.mem_cons_of_mem a h'

theorem argminIdx_lt_length {α : Type} [LinearOrder α] (l : List α)
    (h : l ≠ []) : argminIdx l < l.length := by
  induction l with
  | nil => exact absurd rfl h
  | cons a l ih =>
    by_cases hc : minD l a < a
    · have hl : l ≠ [] := by
        intro he
        rw [he] at hc
        exact lt_irrefl a hc
      simpa [argminIdx, hc] using Nat.succ_lt_succ (ih hl)
    · simp [argminIdx, hc]

theorem argminIdx_le {α : Type} [LinearOrder α] (l : List α)
    (hm : argminIdx l < l.length) :
    ∀ x ∈ l, l.get ⟨argminIdx l, hm⟩ ≤ x := by
  induction l with
  | nil => intro x hx; cases hx
  | cons a l ih =>
    intro x hx
    by_cases hc : minD l a < a
    · have hl : l ≠ [] := by
        intro he; rw [he] at hc; exact lt_irrefl a hc
      have hlt := argminIdx_lt_length l hl
      have hmem : minD l a ∈ l := by
        rcases minD_eq_or_mem l a with h | h
        · rw [h] at hc; exact absurd hc (lt_irrefl a)
        · exact h
      have hget : (a :: l).get ⟨argminIdx (a :: l), hm⟩ = l.get ⟨argminIdx l, hlt⟩ := by
        simp [argminIdx, hc]
      rw [hget]
      rcases List.mem_cons.mp hx with h | h
      · exact h ▸ le_of_lt (lt_of_le_of_lt (ih hlt (minD l a) hmem) hc)
      · exact ih hlt x h
    · have hget : (a :: l).get ⟨argminIdx (a :: l), hm⟩ = a := by
        simp [argminIdx, hc]
      rw [hget]
      rcases List.mem_cons.mp hx with h | h
      · exact h ▸ le_refl a
      · exact le_trans (not_lt.mp hc) (minD_le_mem l a x h)

theorem argminIdx_first {α : Type} [LinearOrder α] (l : List α)
    (hm : argminIdx l < l.length) (j : ℕ) (hj : j < l.length)
    (hlt : j < argminIdx l) :
    l.get ⟨argminIdx l, hm⟩ < l.get ⟨j, hj⟩ := by
  induction l generalizing j with
  | nil => cases hj
  | cons a l ih =>
    by_cases hc : minD l a < a
    · have hl : l ≠ [] := by
        intro he; rw [he] at hc; exact lt_irrefl a hc
      have hltl := argminIdx_lt_length l hl
      have hmem : minD l a ∈ l := by
        rcases minD_eq_or_mem l a with h | h
        · rw [h] at hc; exact absurd hc (lt_irrefl a)
        · exact h
      have hget : (a :: l).get ⟨argminIdx (a :: l), hm⟩ = l.get ⟨argminIdx l, hltl⟩ := by
        simp [argminIdx, hc]
      rw [hget]
      match j with
      | 0 =>
        have : (a :: l).get ⟨0, hj⟩ = a := rfl
        rw [this]
        exact lt_of_le_of_lt (argminIdx_le l hltl (minD l a) hmem) hc
      | j + 1 =>
        have hj' : j < l.length := Nat.lt_of_succ_lt_succ hj
        have hlt' : j < argminIdx l := by
          have : argminIdx (a :: l) = argminIdx l + 1 := by simp [argminIdx, hc]
          omega
        have : (a :: l).get ⟨j + 1, hj⟩ = l.get ⟨j, hj'⟩ := rfl
        rw [this]
        exact ih hltl j hj' hlt'
    · have : argminIdx (a :: l) = 0 := by simp [argminIdx, hc]
      omega

/-! ## Distance functions of the PT-DiT notebook

`protoken_emb_distance_fn(x, y)` normalizes each of `x`, `y` by its
Euclidean norm plus `1e-6` (`jnp.linalg.norm` with `keepdims`) and returns
the negated elementwise-product sum; `aatype_emb_distance_fn(x, y)` is the
sum of squared coordinate differences. -/

noncomputable def norm2 (x : List ℝ) : ℝ :=
  Real.sqrt ((x.map (fun a => a ^ 2)).sum)

noncomputable def protoken_emb_distance_fn (x y : List ℝ) : ℝ :=
  -(List.zipWith (fun a b => a * b)
      (x.map (fun a => a / (norm2 x + 1e-6)))
      (y.map (fun b => b / (norm2 y + 1e-6)))).sum

noncomputable def aatype_emb_distance_fn (x y : List ℝ) : ℝ :=
  (List.zipWith (fun a b => (a - b) ^ 2) x y).sum

/-! ## Nearest-neighbor projection `index_from_embedding`

The notebook slices each per-residue embedding row into the first
`protoken_emb.shape[-1]` coordinates (ProToken part) and the remaining
coordinates (amino-acid part), computes the distance of each slice to
every codebook row, and takes `jnp.argmin` along the codebook axis.
`embDim` plays the role of `shape[-1]` of the (rectangular) codebook. -/

def embDim (emb : List (List ℝ)) : ℕ := emb.headI.length

noncomputable def protoken_index_of (protoken_emb : List (List ℝ)) (v : List ℝ) : ℕ :=
  argminIdx (protoken_emb.map (fun c => protoken_emb_distance_fn (v.take (embDim protoken_emb)) c))

noncomputable def aatype_index_of (protoken_emb aatype_emb : List (List ℝ)) (v : List ℝ) : ℕ :=
  argminIdx (aatype_emb.map (fun c => aatype_emb_distance_fn (v.drop (embDim protoken_emb)) c))

structure IndexFromEmbeddingResult where
  protoken_indexes : List (List ℕ)
  aatype_indexes : List (List ℕ)

/-- Shallow embedding of `index_from_embedding` for a batch `x` of shape
(B, Nres, Nemb): each position of each batch element is mapped to the
index of the nearest ProToken-codebook row (under
`protoken_emb_distance_fn` on the first `embDim protoken_emb` coordinates)
and of the nearest amino-acid-codebook row (under
`aatype_emb_distance_fn` on the remaining coordinates); the notebook runs
with `infer_protuple = True`, so both index arrays are produced. -/
noncomputable def index_from_embedding (protoken_emb aatype_emb : List (List ℝ))
    (x : List (List (List ℝ))) : IndexFromEmbeddingResult :=
  { protoken_indexes := x.map (fun sample => sample.map (protoken_index_of protoken_emb))
    aatype_indexes := x.map (fun sample => sample.map (aatype_index_of protoken_emb aatype_emb)) }

/-- Specification of `argminIdx` over a mapped list: the returned index is
in range, attains the minimum of `f` over the list, and is the lowest
index attaining it. -/
theorem argminIdx_map_spec {β : Type} (f : β → ℝ) (l : List β) (d : β)
    (hl : l ≠ []) :
    argminIdx (l.map f) < l.length ∧
    (∀ j < l.length, f (l.getD (argminIdx (l.map f)) d) ≤ f (l.getD j d)) ∧
    (∀ j < argminIdx (l.map f), f (l.getD (argminIdx (l.map f)) d) < f (l.getD j d)) := by
  have hmne : l.map f ≠ [] := by
    intro h
    exact hl (List.map_eq_nil_iff.mp h)
  have hml : (l.map f).length = l.length := List.length_map l f
  have hk : argminIdx (l.map f) < l.length := hml ▸ argminIdx_lt_length (l.map f) hmne
  have hkm : argminIdx (l.map f) < (l.map f).length := hml ▸ hk
  have hget : ∀ (j : ℕ) (hj : j < l.length), (l.map f).get ⟨j, hml ▸ hj⟩ = f (l.getD j d) := by
    intro j hj
    rw [List.getD_eq_get _ _ hj]
    simp
  refine ⟨hk, ?_, ?_⟩
  · intro j hj
    have := argminIdx_le (l.map f) hkm ((l.map f).get ⟨j, hml ▸ hj⟩) (List.get_mem _ _ _)
    rwa [hget _ hk, hget _ hj] at this
  · intro j hj
    have hjl : j < l.length := lt_trans hj hk
    have := argminIdx_first (l.map f) hkm j (hml ▸ hjl) hj
    rwa [hget _ hk, hget _ hjl] at this

/-- Claim C1: `index_from_embedding` returns, at each batch element and
position, the index of a codebook entry minimizing the respective distance
function (`protoken_emb_distance_fn` on the first `embDim protoken_emb`
coordinates of the row, `aatype_emb_distance_fn` on the remaining
coordinates); when several codebook entries attain the minimum the lowest
index is returned.  Being a Lean function of `protoken_emb`, `aatype_emb`
and `x` alone, it is a pure function of its input. -/
theorem index_from_embedding_nearest (pe ae : List (List ℝ)) (x : List (List (List ℝ)))
    (b p : ℕ) (hb : b < x.length) (hp : p < (x.getD b []).length)
    (hpe : pe ≠ []) (hae : ae ≠ []) :
    ((index_from_embedding pe ae x).protoken_indexes.getD b []).getD p 0 < pe.length ∧
    ((index_from_embedding pe ae x).aatype_indexes.getD b []).getD p 0 < ae.length ∧
    (∀ j < pe.length,
      protoken_emb_distance_fn (((x.getD b []).getD p []).take (embDim pe))
        (pe.getD (((index_from_embedding pe ae x).protoken_indexes.getD b []).getD p 0) []) ≤
      protoken_emb_distance_fn (((x.getD b []).getD p []).take (embDim pe)) (pe.getD j [])) ∧
    (∀ j < ae.length,
      aatype_emb_distance_fn (((x.getD b []).getD p []).drop (embDim pe))
        (ae.getD (((index_from_embedding pe ae x).aatype_indexes.getD b []).getD p 0) []) ≤
      aatype_emb_distance_fn (((x.getD b []).getD p []).drop (embDim pe)) (ae.getD j [])) ∧
    (∀ j < ((index_from_embedding pe ae x).protoken_indexes.getD b []).getD p 0,
      protoken_emb_distance_fn (((x.getD b []).getD p []).take (embDim pe))
        (pe.getD (((index_from_embedding pe ae x).protoken_indexes.getD b []).getD p 0) []) <
      protoken_emb_distance_fn (((x.getD b []).getD p []).take (embDim pe)) (pe.getD j [])) ∧
    (∀ j < ((index_from_embedding pe ae x).aatype_indexes.getD b []).getD p 0,
      aatype_emb_distance_fn (((x.getD b []).getD p []).drop (embDim pe))
        (ae.getD (((index_from_embedding pe ae x).aatype_indexes.getD b []).getD p 0) []) <
      aatype_emb_distance_fn (((x.getD b []).getD p []).drop (embDim pe)) (ae.getD j [])) := by
  have hxb : x.getD b [] = x.get ⟨b, hb⟩ := List.getD_eq_get _ _ hb
  have hrow : ∀ (g : List ℝ → ℕ),
      ((x.map (fun sample => sample.map g)).getD b []).getD p 0 =
      g ((x.getD b []).getD p []) := by
    intro g
    have hb' : b < (x.map (fun sample => sample.map g)).length := by
      rw [List.length_map]; exact hb
    have h1 : (x.map (fun sample => sample.map g)).getD b [] = (x.get ⟨b, hb⟩).map g := by
      rw [List.getD_eq_get _ _ hb']
      simp
    have hp' : p < (x.get ⟨b, hb⟩).length := by rw [← hxb]; exact hp
    have hp2 : p < ((x.get ⟨b, hb⟩).map g).length := by
      rw [List.length_map]; exact hp'
    rw [h1, List.getD_eq_get _ _ hp2, hxb, List.getD_eq_get _ _ hp']
    simp
  have hP : (index_from_embedding pe ae x).protoken_indexes =
      x.map (fun sample => sample.map (protoken_index_of pe)) := rfl
  have hA : (index_from_embedding pe ae x).aatype_indexes =
      x.map (fun sample => sample.map (aatype_index_of pe ae)) := rfl
  rw [hP, hA, hrow, hrow]
  simp only [protoken_index_of, aatype_index_of]
  obtain ⟨h1, h2, h3⟩ := argminIdx_map_spec
    (fun c => protoken_emb_distance_fn (((x.getD b []).getD p []).take (embDim pe)) c) pe [] hpe
  obtain ⟨h4, h5, h6⟩ := argminIdx_map_spec
    (fun c => aatype_emb_distance_fn (((x.getD b []).getD p []).drop (embDim pe)) c) ae [] hae
  exact ⟨h1, h4, h2, h5, h3, h6⟩

/-! ## Spec reference forms of the two distance functions (claim C2)

These definitions follow the spec's words, to be compared with the
definitions translated from the source: cosine-similarity-based distance
("normalize both vectors, negative dot product", with the `1e-6` additive
guard on each Euclidean norm) and squared Euclidean distance, both written
as coordinate sums. -/

noncomputable def dotSpec (x y : List ℝ) : ℝ :=
  ∑ i ∈ Finset.range x.length, x.getD i 0 * y.getD i 0

noncomputable def euclNormSpec (x : List ℝ) : ℝ :=
  Real.sqrt (∑ i ∈ Finset.range x.length, (x.getD i 0) ^ 2)

noncomputable def protoken_emb_distance_spec (x y : List ℝ) : ℝ :=
  -(dotSpec x y) / ((euclNormSpec x + 1e-6) * (euclNormSpec y + 1e-6))

noncomputable def aatype_emb_distance_spec (x y : List ℝ) : ℝ :=
  ∑ i ∈ Finset.range x.length, (x.getD i 0 - y.getD i 0) ^ 2

theorem map_sum_eq_range_sum (g : ℝ → ℝ) (x : List ℝ) :
    (x.map g).sum = ∑ i ∈ Finset.range x.length, g (x.getD i 0) := by
  induction x with
  | nil => simp
  | cons a x ih =>
    rw [List.map_cons, List.sum_cons, ih, List.length_cons, Finset.sum_range_succ']
    simp [List.getD_cons_succ, List.getD_cons_zero, add_comm]

theorem zipWith_sum_eq_range_sum (f : ℝ → ℝ → ℝ) (x y : List ℝ)
    (h : x.length = y.length) :
    (List.zipWith f x y).sum = ∑ i ∈ Finset.range x.length, f (x.getD i 0) (y.getD i 0) := by
  induction x generalizing y with
  | nil => simp
  | cons a x ih =>
    cases y with
    | nil => exact absurd h (by simp)
    | cons b y =>
      have h' : x.length = y.length := by simpa using h
      rw [List.zipWith_cons_cons, List.sum_cons, ih y h', List.length_cons,
        Finset.sum_range_succ']
      simp [List.getD_cons_succ, List.getD_cons_zero, add_comm]

theorem norm2_eq_euclNormSpec (x : List ℝ) : norm2 x = euclNormSpec x := by
  rw [norm2, euclNormSpec, map_sum_eq_range_sum]

/-- Claim C2: the source distance functions compute exactly the spec's
reference definitions — `protoken_emb_distance_fn` is the negative dot
product of the two inputs each divided by its Euclidean norm plus `1e-6`,
and `aatype_emb_distance_fn` is the sum over coordinates of the squared
differences. -/
theorem distance_fns_match_spec (x y : List ℝ) (h : x.length = y.length) :
    protoken_emb_distance_fn x y = protoken_emb_distance_spec x y ∧
    aatype_emb_distance_fn x y = aatype_emb_distance_spec x y := by
  constructor
  · rw [protoken_emb_distance_fn, protoken_emb_distance_spec, List.zipWith_map,
      zipWith_sum_eq_range_sum _ x y h, dotSpec, ← norm2_eq_euclNormSpec, ← norm2_eq_euclNormSpec,
      neg_div, Finset.sum_div, neg_inj]
    refine Finset.sum_congr rfl ?_
    intro i _
    rw [div_mul_div_comm]
  · rw [aatype_emb_distance_fn, aatype_emb_distance_spec, zipWith_sum_eq_range_sum _ x y h]

/-- Witness for C2 at concrete vectors. -/
theorem distance_fns_match_spec_witness :
    ([(1:ℝ), 2].length = [(3:ℝ), 4].length) ∧
    (protoken_emb_distance_fn [(1:ℝ), 2] [(3:ℝ), 4] =
      protoken_emb_distance_spec [(1:ℝ), 2] [(3:ℝ), 4] ∧
     aatype_emb_distance_fn [(1:ℝ), 2] [(3:ℝ), 4] =
      aatype_emb_distance_spec [(1:ℝ), 2] [(3:ℝ), 4]) :=
  ⟨rfl, distance_fns_match_spec [(1:ℝ), 2] [(3:ℝ), 4] rfl⟩

/-- Claim C3: the normalization inside `protoken_emb_distance_fn` divides
by `norm2 x + 1e-6`, which is strictly positive for every input vector;
on the all-zero vector the denominator is exactly `1e-6`, so the
division-by-zero branch is unreachable. -/
theorem protoken_normalization_denominator_pos (x : List ℝ) (n : ℕ) :
    0 < norm2 x + 1e-6 ∧ norm2 (List.replicate n (0:ℝ)) + 1e-6 = 1e-6 := by
  constructor
  · have h := Real.sqrt_nonneg ((x.map (fun a => a ^ 2)).sum)
    rw [norm2]
    nlinarith
  · rw [norm2]
    simp

/-- Witness for C1 at a concrete batch, position and codebooks. -/
theorem index_from_embedding_nearest_witness :
    0 < ([[[(1:ℝ), 0, 5]]] : List (List (List ℝ))).length ∧
    0 < (([[[(1:ℝ), 0, 5]]] : List (List (List ℝ))).getD 0 []).length ∧
    ([[(1:ℝ), 0], [0, 1]] : List (List ℝ)) ≠ [] ∧
    ([[(5:ℝ)], [2]] : List (List ℝ)) ≠ [] ∧
    ((index_from_embedding [[(1:ℝ), 0], [0, 1]] [[(5:ℝ)], [2]]
        [[[(1:ℝ), 0, 5]]]).protoken_indexes.getD 0 []).getD 0 0 <
      ([[(1:ℝ), 0], [0, 1]] : List (List ℝ)).length ∧
    ((index_from_embedding [[(1:ℝ), 0], [0, 1]] [[(5:ℝ)], [2]]
        [[[(1:ℝ), 0, 5]]]).aatype_indexes.getD 0 []).getD 0 0 <
      ([[(5:ℝ)], [2]] : List (List ℝ)).length := by
  have h := index_from_embedding_nearest [[(1:ℝ), 0], [0, 1]] [[(5:ℝ)], [2]]
    [[[(1:ℝ), 0, 5]]] 0 0 (by decide) (by decide)
    (by simp) (by simp)
  exact ⟨by decide, by decide, by simp, by simp, h.1, h.2.1⟩

/-- Claim C4: with the two-entry two-dimensional codebook `[1,0]`, `[-1,0]`
under the cosine-style `protoken_emb_distance_fn`, the nearest-neighbor
projection maps the input `[0.9, 0.1]` to code id `0` and the input
`[-0.9, -0.1]` to code id `1`. -/
theorem two_entry_codebook_scenario :
    (index_from_embedding [[(1:ℝ), 0], [-1, 0]] []
      [[[(0.9:ℝ), 0.1]]]).protoken_indexes = [[0]] ∧
    (index_from_embedding [[(1:ℝ), 0], [-1, 0]] []
      [[[(-0.9:ℝ), -0.1]]]).protoken_indexes = [[1]] := by
  have hA : (0:ℝ) < norm2 [(0.9:ℝ), 0.1] + 1e-6 :=
    (protoken_normalization_denominator_pos [(0.9:ℝ), 0.1] 0).1
  have hA' : (0:ℝ) < norm2 [(-0.9:ℝ), -0.1] + 1e-6 :=
    (protoken_normalization_denominator_pos [(-0.9:ℝ), -0.1] 0).1
  have hB : (0:ℝ) < norm2 [(1:ℝ), 0] + 1e-6 :=
    (protoken_normalization_denominator_pos [(1:ℝ), 0] 0).1
  have hB' : (0:ℝ) < norm2 [(-1:ℝ), 0] + 1e-6 :=
    (protoken_normalization_denominator_pos [(-1:ℝ), 0] 0).1
  have hBB : norm2 [(-1:ℝ), 0] = norm2 [(1:ℝ), 0] := by
    rw [norm2, norm2]
    norm_num
  constructor
  · have hlt : protoken_emb_distance_fn [(0.9:ℝ), 0.1] [(1:ℝ), 0] <
        protoken_emb_distance_fn [(0.9:ℝ), 0.1] [(-1:ℝ), 0] := by
      rw [protoken_emb_distance_fn, protoken_emb_distance_fn]
      simp only [List.map_cons, List.map_nil, List.zipWith_cons_cons, List.zipWith_nil_right,
        List.sum_cons, List.sum_nil, hBB, zero_div, mul_zero, add_zero, neg_div, neg_mul,
        mul_neg, neg_neg]
      have hpos : (0:ℝ) < 0.9 / (norm2 [(0.9:ℝ), 0.1] + 1e-6) *
          (1 / (norm2 [(1:ℝ), 0] + 1e-6)) := by positivity
      linarith [hpos]
    simp only [index_from_embedding, List.map_cons, List.map_nil, protoken_index_of, embDim,
      List.headI, List.length_cons, List.length_nil, List.take, IndexFromEmbeddingResult.mk.injEq]
    rw [argminIdx]
    rw [if_neg]
    simp only [minD, List.foldr]
    rw [min_eq_right (le_of_lt hlt)]
    exact lt_irrefl _
  · have hlt : protoken_emb_distance_fn [(-0.9:ℝ), -0.1] [(-1:ℝ), 0] <
        protoken_emb_distance_fn [(-0.9:ℝ), -0.1] [(1:ℝ), 0] := by
      rw [protoken_emb_distance_fn, protoken_emb_distance_fn]
      simp only [List.map_cons, List.map_nil, List.zipWith_cons_cons, List.zipWith_nil_right,
        List.sum_cons, List.sum_nil, hBB, zero_div, mul_zero, add_zero, neg_div, neg_mul,
        mul_neg, neg_neg]
      have hpos : (0:ℝ) < 0.9 / (norm2 [(-0.9:ℝ), -0.1] + 1e-6) *
          (1 / (norm2 [(1:ℝ), 0] + 1e-6)) := by positivity
      linarith [hpos]
    simp only [index_from_embedding, List.map_cons, List.map_nil, protoken_index_of, embDim,
      List.headI, List.length_cons, List.length_nil, List.take, IndexFromEmbeddingResult.mk.injEq]
    rw [argminIdx]
    rw [if_pos]
    · rw [argminIdx]
      simp [minD]
    · simp only [minD, List.foldr]
      rw [min_eq_left (le_of_lt hlt)]
      exact hlt

theorem get2_map {γ : Type} (g : List ℝ → γ) (x : List (List (List ℝ))) (b p : ℕ) :
    ((x.map (fun sample => sample.map g)).get? b).bind (fun r => r.get? p) =
      ((x.get? b).bind (fun r => r.get? p)).map g := by
  rw [List.get?_map]
  cases hx : x.get? b with
  | none => rfl
  | some s => simp [List.get?_map]

/-- Claim C5: `index_from_embedding` computes each output position from
that position's input row alone, so two input batches that agree at every
unmasked position (and differ arbitrarily at padding positions) receive
identical `protoken_indexes` and `aatype_indexes` at every unmasked
position. -/
theorem index_from_embedding_mask_independence
    (pe ae : List (List ℝ)) (x x' : List (List (List ℝ))) (mask : List Bool)
    (hagree : ∀ b p, mask.get? p = some true →
      (x.get? b).bind (fun r => r.get? p) = (x'.get? b).bind (fun r => r.get? p)) :
    ∀ b p, mask.get? p = some true →
      ((index_from_embedding pe ae x).protoken_indexes.get? b).bind (fun r => r.get? p) =
        ((index_from_embedding pe ae x').protoken_indexes.get? b).bind (fun r => r.get? p) ∧
      ((index_from_embedding pe ae x).aatype_indexes.get? b).bind (fun r => r.get? p) =
        ((index_from_embedding pe ae x').aatype_indexes.get? b).bind (fun r => r.get? p) := by
  intro b p hp
  constructor
  · have h1 := get2_map (protoken_index_of pe) x b p
    have h2 := get2_map (protoken_index_of pe) x' b p
    show ((x.map (fun sample => sample.map (protoken_index_of pe))).get? b).bind
        (fun r => r.get? p) =
      ((x'.map (fun sample => sample.map (protoken_index_of pe))).get? b).bind
        (fun r => r.get? p)
    rw [h1, h2, hagree b p hp]
  · have h1 := get2_map (aatype_index_of pe ae) x b p
    have h2 := get2_map (aatype_index_of pe ae) x' b p
    show ((x.map (fun sample => sample.map (aatype_index_of pe ae))).get? b).bind
        (fun r => r.get? p) =
      ((x'.map (fun sample => sample.map (aatype_index_of pe ae))).get? b).bind
        (fun r => r.get? p)
    rw [h1, h2, hagree b p hp]

/-- Witness for C5: two concrete batches that differ only at the padding
position (mask `[true, false]`) receive the same indexes at position 0. -/
theorem index_from_embedding_mask_independence_witness :
    (∀ b p, ([true, false] : List Bool).get? p = some true →
      (([[[(1:ℝ), 2], [3, 4]]] : List (List (List ℝ))).get? b).bind (fun r => r.get? p) =
        (([[[(1:ℝ), 2], [9, 9]]] : List (List (List ℝ))).get? b).bind (fun r => r.get? p)) ∧
    (((index_from_embedding [[(1:ℝ)]] [[(2:ℝ)]]
          [[[(1:ℝ), 2], [3, 4]]]).protoken_indexes.get? 0).bind (fun r => r.get? 0) =
        ((index_from_embedding [[(1:ℝ)]] [[(2:ℝ)]]
          [[[(1:ℝ), 2], [9, 9]]]).protoken_indexes.get? 0).bind (fun r => r.get? 0) ∧
      ((index_from_embedding [[(1:ℝ)]] [[(2:ℝ)]]
          [[[(1:ℝ), 2], [3, 4]]]).aatype_indexes.get? 0).bind (fun r => r.get? 0) =
        ((index_from_embedding [[(1:ℝ)]] [[(2:ℝ)]]
          [[[(1:ℝ), 2], [9, 9]]]).aatype_indexes.get? 0).bind (fun r => r.get? 0)) := by
  have hagree : ∀ b p, ([true, false] : List Bool).get? p = some true →
      (([[[(1:ℝ), 2], [3, 4]]] : List (List (List ℝ))).get? b).bind (fun r => r.get? p) =
        (([[[(1:ℝ), 2], [9, 9]]] : List (List (List ℝ))).get? b).bind (fun r => r.get? p) := by
    intro b p hp
    match p, hp with
    | 0, _ =>
      match b with
      | 0 => rfl
      | b + 1 => rfl
    | 1, hp => simp at hp
  exact ⟨hagree, index_from_embedding_mask_independence [[(1:ℝ)]] [[(2:ℝ)]]
    [[[(1:ℝ), 2], [3, 4]]] [[[(1:ℝ), 2], [9, 9]]] [true, false] hagree 0 0 rfl⟩

/-! ## Residue-name conversions

`aatype_index_to_resname` looks each integer index up in the 20-entry
`restypes` table (`restypes[int(i)]`; an out-of-range index is the
fallible Python `IndexError` case, embedded as `none`) and joins the
symbols.  `resname_to_aatype_index` locates each character with
`restypes.index(a)` (first occurrence; a missing character raises
`ValueError`, embedded as `none`). -/

def restypes : List Char :=
  ['A', 'R', 'N', 'D', 'C', 'Q', 'E', 'G', 'H', 'I', 'L', 'K', 'M', 'F', 'P',
   'S', 'T', 'W', 'Y', 'V']

def aatype_index_to_resname : List ℕ → Option (List Char)
  | [] => some []
  | i :: rest =>
    match restypes.get? i, aatype_index_to_resname rest with
    | some c, some s => some (c :: s)
    | _, _ => none

def resname_to_aatype_index : List Char → Option (List ℕ)
  | [] => some []
  | c :: rest =>
    match restypes.findIdx? (fun b => b = c), resname_to_aatype_index rest with
    | some i, some l => some (i :: l)
    | _, _ => none

theorem restypes_get?_isSome : ∀ i < 20, (restypes.get? i).isSome := by decide

theorem restypes_findIdx_getD :
    ∀ i < 20, restypes.findIdx? (fun b => b = restypes.getD i 'A') = some i := by decide

theorem restypes_mem_findIdx : ∀ c ∈ restypes,
    (restypes.findIdx? (fun b => b = c)).getD 99 < 20 ∧
    restypes.get? ((restypes.findIdx? (fun b => b = c)).getD 99) = some c ∧
    (restypes.findIdx? (fun b => b = c)).isSome = true := by decide

/-- Counterexample to claim C7 as stated: index 20 lies in the data
model's 22-way categorical range (0..21), yet the lookup into the
20-entry residue-type table goes out of range (Python `IndexError`,
embedded as `none`) instead of returning a residue symbol. -/
theorem aatype_index_to_resname_range_counterexample :
    20 ≤ 21 ∧ aatype_index_to_resname [20] = none := ⟨by decide, by decide⟩

/-- Claim C7 (amended): for every amino-acid type index valid under the
20-entry canonical range (0..19), `aatype_index_to_resname` returns a
residue symbol string — the indexing into the residue-type table never
goes out of range under this precondition. -/
theorem aatype_index_to_resname_total_on_canonical (l : List ℕ)
    (h : ∀ i ∈ l, i < 20) : (aatype_index_to_resname l).isSome := by
  induction l with
  | nil => rfl
  | cons i rest ih =>
    have hi : i < 20 := h i (List.mem_cons_self i rest)
    have hr := ih (fun j hj => h j (List.mem_cons_of_mem i hj))
    obtain ⟨c, hc⟩ := Option.isSome_iff_exists.mp (restypes_get?_isSome i hi)
    obtain ⟨s, hs⟩ := Option.isSome_iff_exists.mp hr
    rw [aatype_index_to_resname, hc, hs]
    rfl

/-- Witness for C7 (amended) at a concrete index list. -/
theorem aatype_index_to_resname_total_on_canonical_witness :
    (∀ i ∈ [0, 19], i < 20) ∧ (aatype_index_to_resname [0, 19]).isSome :=
  ⟨by decide, aatype_index_to_resname_total_on_canonical [0, 19] (by decide)⟩

/-- Claim C10: the residue-name conversions are mutually inverse on the
20 canonical amino acids: decoding a valid index list to symbols and
re-encoding returns the original list, and re-encoding a string of
canonical symbols and decoding returns the original string. -/
theorem resname_conversions_roundtrip :
    (∀ l : List ℕ, (∀ i ∈ l, i < 20) →
      (aatype_index_to_resname l).bind resname_to_aatype_index = some l) ∧
    (∀ s : List Char, (∀ c ∈ s, c ∈ restypes) →
      (resname_to_aatype_index s).bind aatype_index_to_resname = some s) := by
  constructor
  · intro l h
    induction l with
    | nil => rfl
    | cons i rest ih =>
      have hi : i < 20 := h i (List.mem_cons_self i rest)
      have hr := ih (fun j hj => h j (List.mem_cons_of_mem i hj))
      obtain ⟨c, hc⟩ := Option.isSome_iff_exists.mp (restypes_get?_isSome i hi)
      cases hrest : aatype_index_to_resname rest with
      | none => rw [hrest] at hr; simp at hr
      | some s =>
        rw [hrest] at hr
        have hrs : resname_to_aatype_index s = some rest := by
          simpa using hr
        have hcd : restypes.getD i 'A' = c := by
          have hil : i < restypes.length := by
            have : restypes.length = 20 := by decide
            omega
          rw [List.getD_eq_get _ _ hil]
          rw [List.get?_eq_get hil] at hc
          exact Option.some.injEq _ _ ▸ (by simpa using hc)
        have hfind : restypes.findIdx? (fun b => b = c) = some i := by
          rw [← hcd]
          exact restypes_findIdx_getD i hi
        rw [aatype_index_to_resname, hc, hrest]
        simp only [Option.bind_some]
        simp [resname_to_aatype_index, hfind, hrs]
  · intro s h
    induction s with
    | nil => rfl
    | cons c rest ih =>
      have hc : c ∈ restypes := h c (List.mem_cons_self c rest)
      have hr := ih (fun d hd => h d (List.mem_cons_of_mem c hd))
      obtain ⟨hlt, hget, hsome⟩ := restypes_mem_findIdx c hc
      obtain ⟨i, hi⟩ := Option.isSome_iff_exists.mp hsome
      have hgd : (restypes.findIdx? (fun b => b = c)).getD 99 = i := by
        rw [hi]; rfl
      rw [hgd] at hlt hget
      cases hrest : resname_to_aatype_index rest with
      | none => rw [hrest] at hr; simp at hr
      | some l =>
        rw [hrest] at hr
        have hrl : aatype_index_to_resname l = some rest := by
          simpa using hr
        rw [resname_to_aatype_index, hi, hrest]
        simp only [Option.bind_some]
        rw [List.get?_eq_getElem?] at hget
        simp [aatype_index_to_resname, hget, hrl]

/-- Witness for C10 at a concrete index list and a concrete string. -/
theorem resname_conversions_roundtrip_witness :
    ((∀ i ∈ [0, 5, 19], i < 20) ∧
      (aatype_index_to_resname [0, 5, 19]).bind resname_to_aatype_index = some [0, 5, 19]) ∧
    ((∀ c ∈ ['M', 'A', 'V'], c ∈ restypes) ∧
      (resname_to_aatype_index ['M', 'A', 'V']).bind aatype_index_to_resname =
        some ['M', 'A', 'V']) :=
  ⟨⟨by decide, resname_conversions_roundtrip.1 [0, 5, 19] (by decide)⟩,
   ⟨by decide, resname_conversions_roundtrip.2 ['M', 'A', 'V'] (by decide)⟩⟩

/-! ## Structure-module configuration (decoder YAML)

The YAML configuration instantiates the shared IPA/structure-module block
three times (`extended_structure_module`, `frame_initializer`,
`predicted_lddt.fold_iteration`); `frame_initializer` carries no
`position_scale` entry, hence the `Option` field. -/

structure SidechainConfig where
  num_channel : ℕ

structure IPAModuleConfig where
  sink_attention : Bool
  stop_grad_ipa : Bool
  single_channel : ℕ
  pair_channel : ℕ
  num_layer : ℕ
  position_scale : Option ℝ
  num_channel : ℕ
  num_head : ℕ
  num_layer_in_transition : ℕ
  num_point_qk : ℕ
  num_point_v : ℕ
  num_scalar_qk : ℕ
  num_scalar_v : ℕ
  dropout : ℝ
  sidechain : SidechainConfig

noncomputable def extended_structure_module : IPAModuleConfig :=
  { sink_attention := false
    stop_grad_ipa := true
    single_channel := 384
    pair_channel := 128
    num_layer := 8
    position_scale := some 10.0
    num_channel := 384
    num_head := 12
    num_layer_in_transition := 3
    num_point_qk := 4
    num_point_v := 8
    num_scalar_qk := 16
    num_scalar_v := 16
    dropout := 0.05
    sidechain := { num_channel := 128 } }

noncomputable def frame_initializer : IPAModuleConfig :=
  { sink_attention := false
    stop_grad_ipa := false
    single_channel := 384
    pair_channel := 128
    num_layer := 1
    position_scale := none
    num_channel := 384
    num_head := 12
    num_layer_in_transition := 3
    num_point_qk := 4
    num_point_v := 8
    num_scalar_qk := 16
    num_scalar_v := 16
    dropout := 0.05
    sidechain := { num_channel := 128 } }

structure PredictedLddtConfig where
  fold_iteration : IPAModuleConfig
  num_channel : ℕ
  num_bins : ℕ

noncomputable def predicted_lddt : PredictedLddtConfig :=
  { fold_iteration :=
      { sink_attention := false
        stop_grad_ipa := true
        single_channel := 384
        pair_channel := 128
        num_layer := 8
        position_scale := some 10.0
        num_channel := 384
        num_head := 12
        num_layer_in_transition := 3
        num_point_qk := 4
        num_point_v := 8
        num_scalar_qk := 16
        num_scalar_v := 16
        dropout := 0.05
        sidechain := { num_channel := 128 } }
    num_channel := 128
    num_bins := 50 }

/-- Claim C8: the configuration instantiates the shared IPA
structure-module block three times with `num_layer` 8, 1, 8 for
`extended_structure_module`, `frame_initializer` and
`predicted_lddt.fold_iteration`, and `stop_grad_ipa` `True`, `False`,
`True` respectively. -/
theorem ipa_module_instantiation_config :
    extended_structure_module.num_layer = 8 ∧
    frame_initializer.num_layer = 1 ∧
    predicted_lddt.fold_iteration.num_layer = 8 ∧
    extended_structure_module.stop_grad_ipa = true ∧
    frame_initializer.stop_grad_ipa = false ∧
    predicted_lddt.fold_iteration.stop_grad_ipa = true :=
  ⟨rfl, rfl, rfl, rfl, rfl, rfl⟩

/-! ## RePaint mask construction and blending

`make_repaint_info` builds the repaint context by codebook lookup and
concatenation, and the repaint mask row-by-row: a position listed in
`aatype_context_ids` gets `[0]*DIM_EMB_PTK + [1]*DIM_EMB_AA`, a position
listed in `protoken_context_ids` gets `[1]*DIM_EMB_PTK + [0]*DIM_EMB_AA`,
any other position gets `[0]*DIM_EMB`, and the two mask arrays are
combined with `np.logical_or` (here fused elementwise per row).  The
`assert` on matching context lengths is the fallible case.
`repaint_blend` is the blending step of `run_infer`:
`x = repaint_mask * repaint_context_t + (1 - repaint_mask) * x`, with the
boolean mask cast to floats. -/

def repaint_mask_row (dptk daa : ℕ) (aids pids : List ℕ) (i : ℕ) : List Bool :=
  List.zipWith (fun a b => a || b)
    (if i ∈ aids then List.replicate dptk false ++ List.replicate daa true
     else List.replicate (dptk + daa) false)
    (if i ∈ pids then List.replicate dptk true ++ List.replicate daa false
     else List.replicate (dptk + daa) false)

def make_repaint_info (pe ae : List (List ℝ)) (aatypes protokens : List ℕ)
    (aatype_context_ids protoken_context_ids : List ℕ) :
    Option (List (List ℝ) × List (List Bool)) :=
  let protoken_context := protokens.map (fun t => pe.getD t [])
  let aatype_context := aatypes.map (fun t => ae.getD t [])
  if protoken_context.length = aatype_context.length then
    some (List.zipWith (fun a b => a ++ b) protoken_context aatype_context,
      (List.range protoken_context.length).map
        (repaint_mask_row (embDim pe) (embDim ae) aatype_context_ids protoken_context_ids))
  else none

noncomputable def boolToR (b : Bool) : ℝ := if b then 1 else 0

noncomputable def repaint_blend_row (mr : List Bool) (c xr : List ℝ) : List ℝ :=
  List.zipWith (fun m (q : ℝ × ℝ) => boolToR m * q.1 + (1 - boolToR m) * q.2) mr (c.zip xr)

noncomputable def repaint_blend (mask : List (List Bool)) (ctx x : List (List ℝ)) :
    List (List ℝ) :=
  List.zipWith (fun mr (p : List ℝ × List ℝ) => repaint_blend_row mr p.1 p.2)
    mask (ctx.zip x)

theorem getD_replicate_append {α : Type} (n m : ℕ) (a b c : α) (d : ℕ) :
    (List.replicate n a ++ List.replicate m b).getD d c =
      if d < n then a else if d < n + m then b else c := by
  rcases lt_or_ge d n with h | h
  · rw [List.getD_append _ _ _ _ (by simpa using h), if_pos h,
      List.getD_eq_getElem _ _ (by simpa using h), List.getElem_replicate]
  · rw [List.getD_append_right _ _ _ _ (by simpa using h), if_neg (not_lt.mpr h)]
    rcases lt_or_ge d (n + m) with h2 | h2
    · have hdm : d - (List.replicate n a).length < (List.replicate m b).length := by
        simp only [List.length_replicate]
        omega
      rw [if_pos h2, List.getD_eq_getElem _ _ hdm, List.getElem_replicate]
    · rw [if_neg (not_lt.mpr h2)]
      refine List.getD_eq_default _ _ ?_
      simp only [List.length_replicate]
      omega

theorem getD_replicate_eval {α : Type} (k : ℕ) (x c : α) (d : ℕ) :
    (List.replicate k x).getD d c = if d < k then x else c := by
  rcases lt_or_ge d k with h | h
  · rw [if_pos h, List.getD_eq_getElem _ _ (by simpa using h), List.getElem_replicate]
  · rw [if_neg (not_lt.mpr h)]
    exact List.getD_eq_default _ _ (by simpa using h)

theorem repaint_mask_row_length (dptk daa : ℕ) (aids pids : List ℕ) (i : ℕ) :
    (repaint_mask_row dptk daa aids pids i).length = dptk + daa := by
  rw [repaint_mask_row, List.length_zipWith]
  split <;> split <;> simp

theorem repaint_mask_row_getD_false (dptk daa : ℕ) (aids pids : List ℕ) (i d : ℕ)
    (h1 : d < dptk → i ∉ pids) (h2 : dptk ≤ d → i ∉ aids) :
    (repaint_mask_row dptk daa aids pids i).getD d false = false := by
  rcases lt_or_ge d (dptk + daa) with hd | hd
  · have hz : d < (repaint_mask_row dptk daa aids pids i).length := by
      rw [repaint_mask_row_length]; omega
    rw [repaint_mask_row] at hz ⊢
    have hA : d < (if i ∈ aids then List.replicate dptk false ++ List.replicate daa true
        else List.replicate (dptk + daa) false).length := by
      split <;> simp <;> omega
    have hB : d < (if i ∈ pids then List.replicate dptk true ++ List.replicate daa false
        else List.replicate (dptk + daa) false).length := by
      split <;> simp <;> omega
    rw [List.getD_eq_getElem _ _ hz, List.getElem_zipWith,
      ← List.getD_eq_getElem _ false hA, ← List.getD_eq_getElem _ false hB]
    rcases lt_or_ge d dptk with hdp | hdp
    · have hp : i ∉ pids := h1 hdp
      rw [if_neg hp]
      by_cases ha : i ∈ aids
      · rw [if_pos ha]
        rw [getD_replicate_append, getD_replicate_eval]
        simp [hd, hdp]
      · rw [if_neg ha]
        simp [getD_replicate_eval, hd]
    · have ha : i ∉ aids := h2 hdp
      rw [if_neg ha]
      by_cases hp : i ∈ pids
      · rw [if_pos hp]
        rw [getD_replicate_append, getD_replicate_eval]
        simp [hd, not_lt.mpr hdp]
      · rw [if_neg hp]
        simp [getD_replicate_eval, hd]
  · refine List.getD_eq_default _ _ ?_
    rw [repaint_mask_row_length]
    omega

theorem zipWith_self_replicate {α β : Type} (f : α → α → β) (a : α) (n : ℕ) :
    List.zipWith f (List.replicate n a) (List.replicate n a) = List.replicate n (f a a) := by
  induction n with
  | zero => rfl
  | succ n ih => simp [List.replicate_succ, ih]

theorem repaint_mask_row_noncontext (dptk daa : ℕ) (aids pids : List ℕ) (i : ℕ)
    (hia : i ∉ aids) (hip : i ∉ pids) :
    repaint_mask_row dptk daa aids pids i = List.replicate (dptk + daa) false := by
  rw [repaint_mask_row, if_neg hia, if_neg hip, zipWith_self_replicate]
  rfl

theorem blend_row_all_false (c xr : List ℝ) (n : ℕ)
    (hlc : c.length = n) (hlx : xr.length = n) :
    repaint_blend_row (List.replicate n false) c xr = xr := by
  rw [repaint_blend_row]
  induction n generalizing c xr with
  | zero =>
    rw [List.length_eq_zero.mp hlx]
    simp
  | succ n ih =>
    cases c with
    | nil => simp at hlc
    | cons a c =>
      cases xr with
      | nil => simp at hlx
      | cons b xr =>
        simp only [List.replicate_succ, List.zip_cons_cons, List.zipWith_cons_cons]
        rw [ih c xr (by simpa using hlc) (by simpa using hlx)]
        simp [boolToR]

theorem blend_elem_false (mr : List Bool) (c xr : List ℝ) (d : ℕ)
    (hd : d < mr.length) (hdc : d < c.length) (hdx : d < xr.length)
    (hm : mr.getD d false = false) :
    (repaint_blend_row mr c xr).getD d 0 = xr.getD d 0 := by
  rw [repaint_blend_row]
  have hzl : d < (c.zip xr).length := by
    rw [List.length_zip]; omega
  have hl : d < (List.zipWith (fun m (q : ℝ × ℝ) => boolToR m * q.1 + (1 - boolToR m) * q.2)
      mr (c.zip xr)).length := by
    rw [List.length_zipWith, List.length_zip]; omega
  rw [List.getD_eq_getElem _ _ hl, List.getElem_zipWith, List.getElem_zip,
    ← List.getD_eq_getElem mr false hd, hm, ← List.getD_eq_getElem xr 0 hdx]
  simp [boolToR]

theorem repaint_blend_row_length (mr : List Bool) (c xr : List ℝ) :
    (repaint_blend_row mr c xr).length = min mr.length (min c.length xr.length) := by
  rw [repaint_blend_row, List.length_zipWith, List.length_zip]

theorem repaint_blend_getD_row (mask : List (List Bool)) (ctx x : List (List ℝ)) (i : ℕ)
    (him : i < mask.length) (hic : i < ctx.length) (hix : i < x.length) :
    (repaint_blend mask ctx x).getD i [] =
      repaint_blend_row (mask.getD i []) (ctx.getD i []) (x.getD i []) := by
  rw [repaint_blend]
  have hl : i < (List.zipWith (fun mr (p : List ℝ × List ℝ) => repaint_blend_row mr p.1 p.2)
      mask (ctx.zip x)).length := by
    rw [List.length_zipWith, List.length_zip]; omega
  rw [List.getD_eq_getElem _ _ hl, List.getElem_zipWith, List.getElem_zip,
    ← List.getD_eq_getElem mask [] him, ← List.getD_eq_getElem ctx [] hic,
    ← List.getD_eq_getElem x [] hix]

/-- Claim C9: for every residue position `i` that appears in neither
`aatype_context_ids` nor `protoken_context_ids`, the repaint mask row `i`
returned by `make_repaint_info` is entirely `False`, so the RePaint
blending step of `run_infer`
(`x = repaint_mask * repaint_context_t + (1 - repaint_mask) * x`) leaves
the embedding row at `i` exactly unchanged; moreover a position absent
from `protoken_context_ids` keeps all of its first `embDim pe` (ProToken)
coordinates and a position absent from `aatype_context_ids` keeps all of
its remaining (amino-acid) coordinates. -/
theorem repaint_leaves_noncontext_unchanged
    (pe ae : List (List ℝ)) (aatypes protokens : List ℕ)
    (aids pids : List ℕ) (rc : List (List ℝ)) (mask : List (List Bool))
    (hmk : make_repaint_info pe ae aatypes protokens aids pids = some (rc, mask))
    (ctx' x : List (List ℝ)) (i : ℕ)
    (hi : i < protokens.length) (hix : i < x.length) (hic : i < ctx'.length)
    (hxlen : (x.getD i []).length = embDim pe + embDim ae)
    (hclen : (ctx'.getD i []).length = embDim pe + embDim ae) :
    (i ∉ aids → i ∉ pids →
      mask.getD i [] = List.replicate (embDim pe + embDim ae) false ∧
      (repaint_blend mask ctx' x).getD i [] = x.getD i []) ∧
    (i ∉ pids → ∀ d, d < embDim pe →
      ((repaint_blend mask ctx' x).getD i []).getD d 0 = (x.getD i []).getD d 0) ∧
    (i ∉ aids → ∀ d, embDim pe ≤ d →
      ((repaint_blend mask ctx' x).getD i []).getD d 0 = (x.getD i []).getD d 0) := by
  simp only [make_repaint_info] at hmk
  by_cases hlen : (protokens.map (fun t => pe.getD t [])).length =
      (aatypes.map (fun t => ae.getD t [])).length
  case neg => rw [if_neg hlen] at hmk; exact absurd hmk (by simp)
  rw [if_pos hlen] at hmk
  have hpair := Option.some.inj hmk
  have hmask : mask = (List.range (protokens.map (fun t => pe.getD t [])).length).map
      (repaint_mask_row (embDim pe) (embDim ae) aids pids) := (Prod.ext_iff.mp hpair).2.symm
  have hlenmask : mask.length = protokens.length := by
    rw [hmask]
    simp
  have him : i < mask.length := by omega
  have hmaskrow : mask.getD i [] = repaint_mask_row (embDim pe) (embDim ae) aids pids i := by
    rw [hmask]
    have hil : i < ((List.range (protokens.map (fun t => pe.getD t [])).length).map
        (repaint_mask_row (embDim pe) (embDim ae) aids pids)).length := by
      simpa using hi
    rw [List.getD_eq_getElem _ _ hil]
    simp [hi]
  have hrow := repaint_blend_getD_row mask ctx' x i him hic hix
  refine ⟨?_, ?_, ?_⟩
  · intro hia hip
    have hm0 : mask.getD i [] = List.replicate (embDim pe + embDim ae) false := by
      rw [hmaskrow]
      exact repaint_mask_row_noncontext _ _ _ _ _ hia hip
    refine ⟨hm0, ?_⟩
    rw [hrow, hm0]
    exact blend_row_all_false _ _ _ hclen hxlen
  · intro hip d hd
    rw [hrow]
    refine blend_elem_false _ _ _ d ?_ ?_ ?_ ?_
    · rw [hmaskrow, repaint_mask_row_length]; omega
    · omega
    · omega
    · rw [hmaskrow]
      exact repaint_mask_row_getD_false _ _ _ _ _ _ (fun _ => hip)
        (fun hge => absurd hd (not_lt.mpr hge))
  · intro hia d hd
    rw [hrow]
    rcases lt_or_ge d (embDim pe + embDim ae) with hlt | hge
    · refine blend_elem_false _ _ _ d ?_ ?_ ?_ ?_
      · rw [hmaskrow, repaint_mask_row_length]; omega
      · omega
      · omega
      · rw [hmaskrow]
        exact repaint_mask_row_getD_false _ _ _ _ _ _
          (fun hc => absurd hc (not_lt.mpr hd)) (fun _ => hia)
    · rw [List.getD_eq_default, List.getD_eq_default]
      · omega
      · rw [repaint_blend_row_length, hmaskrow, repaint_mask_row_length]
        omega

/-- Witness for C9 at a concrete configuration: position 0 is in neither
context list, position 1 is in both. -/
theorem repaint_leaves_noncontext_unchanged_witness :
    (make_repaint_info [[(1:ℝ), 2]] [[(3:ℝ)]] [0, 0] [0, 0] [1] [1] =
      some ([[(1:ℝ), 2, 3], [1, 2, 3]],
        [[false, false, false], [true, true, true]])) ∧
    (([[false, false, false], [true, true, true]] :
        List (List Bool)).getD 0 [] = List.replicate (2 + 1) false ∧
      (repaint_blend [[false, false, false], [true, true, true]]
          [[(7:ℝ), 8, 9], [7, 8, 9]] [[(10:ℝ), 20, 30], [40, 50, 60]]).getD 0 [] =
        ([[(10:ℝ), 20, 30], [40, 50, 60]] : List (List ℝ)).getD 0 []) := by
  have hmk : make_repaint_info [[(1:ℝ), 2]] [[(3:ℝ)]] [0, 0] [0, 0] [1] [1] =
      some ([[(1:ℝ), 2, 3], [1, 2, 3]],
        [[false, false, false], [true, true, true]]) := by
    simp only [make_repaint_info, embDim]
    norm_num [repaint_mask_row, List.range_succ]
    decide
  refine ⟨hmk, ?_⟩
  have h := repaint_leaves_noncontext_unchanged [[(1:ℝ), 2]] [[(3:ℝ)]] [0, 0] [0, 0]
    [1] [1] [[(1:ℝ), 2, 3], [1, 2, 3]] [[false, false, false], [true, true, true]] hmk
    [[(7:ℝ), 8, 9], [7, 8, 9]] [[(10:ℝ), 20, 30], [40, 50, 60]] 0
    (by decide) (by decide) (by decide) (by decide) (by decide)
  exact h.1 (by decide) (by decide)

/-! ## Geometry for the encoder's rigid invariance (claim C6)

The encoder/IPA implementation itself (the PROTOKEN model package invoked
via `scripts/infer_batch.py`) is not part of the sources here; the
following development is modelled from the spec: per-residue rigid frames
(rotation + translation) anchored at CA with orientation fixed by N-CA-C
geometry, IPA attention logits computed as negative squared distances
between query/key points transformed into global coordinates via the
frames, value points re-expressed in the local frame of the attending
residue, and frame updates composed with the existing frame. -/

abbrev V3 := Fin 3 → ℝ

abbrev M3 := Matrix (Fin 3) (Fin 3) ℝ

structure Rigid where
  rot : M3
  trans : V3

noncomputable def applyRigid (T : Rigid) (v : V3) : V3 := T.rot.mulVec v + T.trans

noncomputable def composeRigid (A B : Rigid) : Rigid :=
  ⟨A.rot * B.rot, A.rot.mulVec B.trans + A.trans⟩

noncomputable def invRigid (A : Rigid) : Rigid :=
  ⟨A.rot.transpose, -(A.rot.transpose.mulVec A.trans)⟩

def IsRotation (R : M3) : Prop := R.transpose * R = 1 ∧ R.det = 1

noncomputable def sqDist3 (u v : V3) : ℝ := Matrix.dotProduct (u - v) (u - v)

noncomputable def cross3 (u v : V3) : V3 :=
  ![u 1 * v 2 - u 2 * v 1, u 2 * v 0 - u 0 * v 2, u 0 * v 1 - u 1 * v 0]

noncomputable def normalize3 (v : V3) : V3 :=
  (Real.sqrt (Matrix.dotProduct v v) + 1e-6)⁻¹ • v

theorem dotProduct_mulVec_rotation (R : M3) (hR : R.transpose * R = 1) (u v : V3) :
    Matrix.dotProduct (R.mulVec u) (R.mulVec v) = Matrix.dotProduct u v := by
  rw [Matrix.dotProduct_mulVec]
  have h : Matrix.vecMul (R.mulVec u) R = u := by
    rw [← Matrix.transpose_transpose R, Matrix.vecMul_transpose, Matrix.transpose_transpose,
      Matrix.mulVec_mulVec, hR, Matrix.one_mulVec]
  rw [h]

theorem applyRigid_composeRigid (A B : Rigid) (v : V3) :
    applyRigid (composeRigid A B) v = applyRigid A (applyRigid B v) := by
  simp [applyRigid, composeRigid, Matrix.mulVec_add, ← Matrix.mulVec_mulVec, add_assoc]

theorem composeRigid_assoc (A B C : Rigid) :
    composeRigid (composeRigid A B) C = composeRigid A (composeRigid B C) := by
  simp [composeRigid, Matrix.mul_assoc, Matrix.mulVec_add, ← Matrix.mulVec_mulVec, add_assoc]

theorem sqDist3_applyRigid (G : Rigid) (ho : G.rot.transpose * G.rot = 1) (u v : V3) :
    sqDist3 (applyRigid G u) (applyRigid G v) = sqDist3 u v := by
  rw [sqDist3, sqDist3, applyRigid, applyRigid]
  have h : (G.rot.mulVec u + G.trans) - (G.rot.mulVec v + G.trans) = G.rot.mulVec (u - v) := by
    rw [Matrix.mulVec_sub]
    abel
  rw [h, dotProduct_mulVec_rotation _ ho]

theorem invRigid_compose_apply (G T : Rigid) (ho : G.rot.transpose * G.rot = 1) (z : V3) :
    applyRigid (invRigid (composeRigid G T)) (applyRigid G z) =
      applyRigid (invRigid T) z := by
  have hid : ∀ w : V3, G.rot.transpose.mulVec (G.rot.mulVec w) = w := by
    intro w
    rw [Matrix.mulVec_mulVec, ho, Matrix.one_mulVec]
  simp only [applyRigid, invRigid, composeRigid, Matrix.transpose_mul,
    Matrix.mulVec_add, ← Matrix.mulVec_mulVec, hid]
  abel

theorem adjugate_eq_transpose_of_rotation (R : M3) (hR : IsRotation R) :
    R.adjugate = R.transpose := by
  obtain ⟨ho, hdet⟩ := hR
  have hmul : R * R.adjugate = 1 := by
    rw [Matrix.mul_adjugate, hdet, one_smul]
  calc R.adjugate = 1 * R.adjugate := (one_mul _).symm
    _ = (R.transpose * R) * R.adjugate := by rw [ho]
    _ = R.transpose * (R * R.adjugate) := by rw [Matrix.mul_assoc]
    _ = R.transpose := by rw [hmul, Matrix.mul_one]

theorem cross3_rotation (R : M3) (hR : IsRotation R) (u v : V3) :
    cross3 (R.mulVec u) (R.mulVec v) = R.mulVec (cross3 u v) := by
  have he := adjugate_eq_transpose_of_rotation R hR
  rw [Matrix.adjugate_fin_three] at he
  have h00 : R 1 1 * R 2 2 - R 1 2 * R 2 1 = R 0 0 := by
    have := congrFun (congrFun he 0) 0
    simpa using this
  have h01 : -(R 1 0 * R 2 2) + R 1 2 * R 2 0 = R 0 1 := by
    have := congrFun (congrFun he 1) 0
    simpa using this
  have h02 : R 1 0 * R 2 1 - R 1 1 * R 2 0 = R 0 2 := by
    have := congrFun (congrFun he 2) 0
    simpa using this
  have h10 : -(R 0 1 * R 2 2) + R 0 2 * R 2 1 = R 1 0 := by
    have := congrFun (congrFun he 0) 1
    simpa using this
  have h11 : R 0 0 * R 2 2 - R 0 2 * R 2 0 = R 1 1 := by
    have := congrFun (congrFun he 1) 1
    simpa using this
  have h12 : -(R 0 0 * R 2 1) + R 0 1 * R 2 0 = R 1 2 := by
    have := congrFun (congrFun he 2) 1
    simpa using this
  have h20 : R 0 1 * R 1 2 - R 0 2 * R 1 1 = R 2 0 := by
    have := congrFun (congrFun he 0) 2
    simpa using this
  have h21 : -(R 0 0 * R 1 2) + R 0 2 * R 1 0 = R 2 1 := by
    have := congrFun (congrFun he 1) 2
    simpa using this
  have h22 : R 0 0 * R 1 1 - R 0 1 * R 1 0 = R 2 2 := by
    have := congrFun (congrFun he 2) 2
    simpa using this
  funext k
  fin_cases k
  · show (R.mulVec u 1 * R.mulVec v 2 - R.mulVec u 2 * R.mulVec v 1) = R.mulVec (cross3 u v) 0
    simp only [Matrix.mulVec, Matrix.dotProduct, Fin.sum_univ_three, cross3]
    simp only [Matrix.cons_val_zero, Matrix.cons_val_one, Matrix.head_cons,
      Matrix.cons_val_two, Matrix.tail_cons]
    linear_combination (u 1 * v 2 - u 2 * v 1) * h00 + (u 2 * v 0 - u 0 * v 2) * h01 +
      (u 0 * v 1 - u 1 * v 0) * h02
  · show (R.mulVec u 2 * R.mulVec v 0 - R.mulVec u 0 * R.mulVec v 2) = R.mulVec (cross3 u v) 1
    simp only [Matrix.mulVec, Matrix.dotProduct, Fin.sum_univ_three, cross3]
    simp only [Matrix.cons_val_zero, Matrix.cons_val_one, Matrix.head_cons,
      Matrix.cons_val_two, Matrix.tail_cons]
    linear_combination (u 1 * v 2 - u 2 * v 1) * h10 + (u 2 * v 0 - u 0 * v 2) * h11 +
      (u 0 * v 1 - u 1 * v 0) * h12
  · show (R.mulVec u 0 * R.mulVec v 1 - R.mulVec u 1 * R.mulVec v 0) = R.mulVec (cross3 u v) 2
    simp only [Matrix.mulVec, Matrix.dotProduct, Fin.sum_univ_three, cross3]
    simp only [Matrix.cons_val_zero, Matrix.cons_val_one, Matrix.head_cons,
      Matrix.cons_val_two, Matrix.tail_cons]
    linear_combination (u 1 * v 2 - u 2 * v 1) * h20 + (u 2 * v 0 - u 0 * v 2) * h21 +
      (u 0 * v 1 - u 1 * v 0) * h22

theorem normalize3_rotation (R : M3) (ho : R.transpose * R = 1) (v : V3) :
    normalize3 (R.mulVec v) = R.mulVec (normalize3 v) := by
  rw [normalize3, normalize3, dotProduct_mulVec_rotation R ho, Matrix.mulVec_smul]

/-- Modelled from the spec: rotation matrix whose columns are the three
given basis vectors (the local frame axes). -/
noncomputable def rotOfCols (a b c : V3) : M3 :=
  Matrix.of fun i j => ![a, b, c] j i

theorem rotOfCols_mul (R : M3) (a b c : V3) :
    R * rotOfCols a b c = rotOfCols (R.mulVec a) (R.mulVec b) (R.mulVec c) := by
  ext i j
  fin_cases j <;>
    simp [rotOfCols, Matrix.mul_apply, Matrix.mulVec, Matrix.dotProduct,
      Fin.sum_univ_three, mul_comm]

/-- Modelled from the spec: the encoder's per-residue rigid frame is
anchored at CA with orientation fixed by N-CA-C geometry — a
Gram-Schmidt construction with the `1e-6`-guarded normalization of the
spec's numeric-degeneracy rule: `e1` along C-CA, `e2` the orthogonalized
N-CA direction, `e3` their cross product; the translation is CA.  (The
encoder implementation itself is not under `src/`.) -/
noncomputable def frameFromBB (bb : V3 × V3 × V3) : Rigid :=
  let e1 := normalize3 (bb.2.2 - bb.2.1)
  let u2 := (bb.1 - bb.2.1) - Matrix.dotProduct (bb.1 - bb.2.1) e1 • e1
  let e2 := normalize3 u2
  ⟨rotOfCols e1 e2 (cross3 e1 e2), bb.2.1⟩

theorem frameFromBB_equivariant (G : Rigid) (hG : IsRotation G.rot) (bb : V3 × V3 × V3) :
    frameFromBB (applyRigid G bb.1, applyRigid G bb.2.1, applyRigid G bb.2.2) =
      composeRigid G (frameFromBB bb) := by
  obtain ⟨ho, hdet⟩ := hG
  have hsub : ∀ p q : V3, applyRigid G p - applyRigid G q = G.rot.mulVec (p - q) := by
    intro p q
    rw [applyRigid, applyRigid, Matrix.mulVec_sub]
    abel
  have he1 : normalize3 (applyRigid G bb.2.2 - applyRigid G bb.2.1) =
      G.rot.mulVec (normalize3 (bb.2.2 - bb.2.1)) := by
    rw [hsub, normalize3_rotation _ ho]
  have hu2 : (applyRigid G bb.1 - applyRigid G bb.2.1) -
      Matrix.dotProduct (applyRigid G bb.1 - applyRigid G bb.2.1)
        (normalize3 (applyRigid G bb.2.2 - applyRigid G bb.2.1)) •
        (normalize3 (applyRigid G bb.2.2 - applyRigid G bb.2.1)) =
      G.rot.mulVec ((bb.1 - bb.2.1) -
        Matrix.dotProduct (bb.1 - bb.2.1) (normalize3 (bb.2.2 - bb.2.1)) •
          (normalize3 (bb.2.2 - bb.2.1))) := by
    rw [he1, hsub, dotProduct_mulVec_rotation _ ho]
    simp only [Matrix.mulVec_sub, Matrix.mulVec_smul]
  simp only [frameFromBB]
  rw [hu2]
  simp only [he1, normalize3_rotation _ ho, cross3_rotation G.rot ⟨ho, hdet⟩]
  rw [composeRigid, rotOfCols_mul, applyRigid]


/-! ## Spec-modelled encoder (claim C6)

The encoder/IPA implementation (the PROTOKEN model package invoked via
`scripts/infer_batch.py`) is not under `src/`; the following definitions
are modelled from the spec's words.  Coordinates enter the encoder in two
ways: (a) the pair/single representations are seeded from the structure —
modelled as arbitrary functions of the residue indices (covering the
relative-position encoding) and of rigid-invariant inter-atom quantities
(covering the 9-dimensional template pair features), then refined by the
coordinate-free Evoformer-style stack (abstract, with the spec's
shape-preservation contract); (b) the IPA layers consume the per-residue
frames built from N-CA-C geometry.  Each IPA layer follows §4.3: per-head
attention logits are the sum of a scalar qk term from the two residues'
single features, a geometric term (a learned per-head weight times a
fixed constant times the sum over `num_point_qk` points of the negative
squared distance between frame-transformed query and key points), and a
pair-bias term, soft-maxed per query row with masked positions excluded;
the output aggregates the attention-weighted scalar value vectors, the
attention-weighted value points transformed back into the attending
residue's local frame, and the attention-weighted pair values, all fed to
an abstract final projection/update; the frame update composes the
predicted local transform with the existing frame.  `stop_grad_ipa`,
dropout and rotation renormalization affect only gradients/numerics, not
the forward values modelled here. -/

noncomputable def atomOf (u : V3 × V3 × V3) : Fin 3 → V3 := ![u.1, u.2.1, u.2.2]

/-- Modelled from the spec: the rigid-invariant pairwise backbone
features of two residues — the 3 × 3 = 9 squared distances between their
N, CA, C atoms (the spec fixes only `template_feat_dim = 9` and that the
features seed the pair representation from the structure). -/
noncomputable def bbAtomDists (u v : V3 × V3 × V3) : Fin 3 → Fin 3 → ℝ :=
  fun a b => sqDist3 (atomOf u a) (atomOf v b)

/-- Modelled from the spec: the learned (weight-dependent) parts of the
encoder, abstracted over the single-representation type `F` and the
pair-representation type `Q`.  `embedTrunk` is the Evoformer-style
pair/single stack: an arbitrary coordinate-free function of the mask and
the structure-seeded representations, carrying the spec's contract that
it "produces updated (single', pair') of identical shape".
`updateSingle` is the final projection of one IPA layer, consuming the
per-head aggregated scalar values, pair values and local-frame value
points together with the residue's own single features (residual
connection and transition layers absorbed). -/
structure EncoderParams (F Q : Type) where
  num_head : ℕ
  num_point_qk : ℕ
  num_point_v : ℕ
  num_layer : ℕ
  initSingle : ℕ → (Fin 3 → Fin 3 → ℝ) → F
  initPair : ℕ → ℕ → (Fin 3 → Fin 3 → ℝ) → Q
  embedTrunk : List Bool → List F → (ℕ → ℕ → Q) → List F × (ℕ → ℕ → Q)
  embedTrunk_length : ∀ mask s pair, (embedTrunk mask s pair).1.length = s.length
  scalarLogit : Fin num_head → F → F → ℝ
  headWeight : Fin num_head → ℝ
  pointConst : ℝ
  qpt : Fin num_head → Fin num_point_qk → F → V3
  kpt : Fin num_head → Fin num_point_qk → F → V3
  vpt : Fin num_head → Fin num_point_v → F → V3
  vscalar : Fin num_head → ℕ → F → ℝ
  pairBias : Fin num_head → Q → ℝ
  pairValue : Fin num_head → ℕ → Q → ℝ
  updateSingle : F → (Fin num_head → ℕ → ℝ) → (Fin num_head → ℕ → ℝ) →
    (Fin num_head → Fin num_point_v → V3) → F
  deltaRot : F → M3
  deltaTrans : F → V3
  proj : F → List ℝ

/-- Placeholder frame for out-of-range list lookups (never reached at
the in-range indices the layer maps over). -/
noncomputable def dRigid : Rigid := ⟨1, 0⟩

/-- Modelled from the spec: the head-`h` attention logit of query residue
`i` against key residue `j` — scalar qk term plus the per-head-weighted,
constant-scaled sum over `num_point_qk` points of negative squared
distances between frame-transformed query and key points, plus the pair
bias. -/
noncomputable def ipaLogit {F Q : Type} [Inhabited F] (Pm : EncoderParams F Q)
    (pair : ℕ → ℕ → Q) (s : List F) (frames : List Rigid)
    (h : Fin Pm.num_head) (i j : ℕ) : ℝ :=
  Pm.scalarLogit h (s.getD i default) (s.getD j default) +
  Pm.headWeight h * Pm.pointConst *
    (∑ p : Fin Pm.num_point_qk,
      -(sqDist3 (applyRigid (frames.getD i dRigid) (Pm.qpt h p (s.getD i default)))
          (applyRigid (frames.getD j dRigid) (Pm.kpt h p (s.getD j default))))) +
  Pm.pairBias h (pair i j)

/-- Masked softmax over a logit row: masked positions contribute zero
weight (the spec's −∞ logit bias pre-softmax), the rest are normalized by
the total. -/
noncomputable def maskedSoftmax (mask : List Bool) (L : List ℝ) : List ℝ :=
  (List.zipWith (fun m l => if m then Real.exp l else 0) mask L).map
    (fun x => x / (List.zipWith (fun m l => if m then Real.exp l else 0) mask L).sum)

/-- Attention weights of head `h`, query row `i`. -/
noncomputable def ipaAttn {F Q : Type} [Inhabited F] (Pm : EncoderParams F Q)
    (pair : ℕ → ℕ → Q) (mask : List Bool) (s : List F) (frames : List Rigid)
    (h : Fin Pm.num_head) (i : ℕ) : List ℝ :=
  maskedSoftmax mask ((List.range s.length).map (ipaLogit Pm pair s frames h i))

/-- Attention-weighted aggregate of the scalar value vectors (channel
`c`). -/
noncomputable def ipaScalarAgg {F Q : Type} [Inhabited F] (Pm : EncoderParams F Q)
    (pair : ℕ → ℕ → Q) (mask : List Bool) (s : List F) (frames : List Rigid)
    (h : Fin Pm.num_head) (i : ℕ) (c : ℕ) : ℝ :=
  (List.zipWith (fun a j => a * Pm.vscalar h c (s.getD j default))
    (ipaAttn Pm pair mask s frames h i) (List.range s.length)).sum

/-- Attention-weighted aggregate of the pair values (channel `c`). -/
noncomputable def ipaPairAgg {F Q : Type} [Inhabited F] (Pm : EncoderParams F Q)
    (pair : ℕ → ℕ → Q) (mask : List Bool) (s : List F) (frames : List Rigid)
    (h : Fin Pm.num_head) (i : ℕ) (c : ℕ) : ℝ :=
  (List.zipWith (fun a j => a * Pm.pairValue h c (pair i j))
    (ipaAttn Pm pair mask s frames h i) (List.range s.length)).sum

/-- Attention-weighted aggregate of the frame-transformed value points,
re-expressed in the attending residue's local frame. -/
noncomputable def ipaPointAgg {F Q : Type} [Inhabited F] (Pm : EncoderParams F Q)
    (pair : ℕ → ℕ → Q) (mask : List Bool) (s : List F) (frames : List Rigid)
    (h : Fin Pm.num_head) (p : Fin Pm.num_point_v) (i : ℕ) : V3 :=
  applyRigid (invRigid (frames.getD i dRigid))
    ((List.zipWith
        (fun a j => a • applyRigid (frames.getD j dRigid) (Pm.vpt h p (s.getD j default)))
        (ipaAttn Pm pair mask s frames h i) (List.range s.length)).sum)

/-- Modelled from the spec: the single-representation update of one IPA
layer. -/
noncomputable def ipaSingles {F Q : Type} [Inhabited F] (Pm : EncoderParams F Q)
    (pair : ℕ → ℕ → Q) (mask : List Bool) (s : List F) (frames : List Rigid) : List F :=
  (List.range s.length).map (fun i =>
    Pm.updateSingle (s.getD i default)
      (fun h => ipaScalarAgg Pm pair mask s frames h i)
      (fun h => ipaPairAgg Pm pair mask s frames h i)
      (fun h p => ipaPointAgg Pm pair mask s frames h p i))

/-- Modelled from the spec: one IPA layer — single update from the
aggregated attention outputs, then a frame update predicted from the new
singles and composed with the existing frame (apply in local frame,
then re-express globally). -/
noncomputable def ipaLayer {F Q : Type} [Inhabited F] (Pm : EncoderParams F Q)
    (pair : ℕ → ℕ → Q) (mask : List Bool)
    (st : List F × List Rigid) : List F × List Rigid :=
  (ipaSingles Pm pair mask st.1 st.2,
    List.zipWith (fun fi' Ti => composeRigid Ti ⟨Pm.deltaRot fi', Pm.deltaTrans fi'⟩)
      (ipaSingles Pm pair mask st.1 st.2) st.2)

/-- Modelled from the spec: the structure-seeded single features — an
arbitrary function of the residue index and the residue's own
rigid-invariant backbone geometry. -/
noncomputable def encoderSeedSingles {F Q : Type} (Pm : EncoderParams F Q)
    (bb : List (V3 × V3 × V3)) : List F :=
  (List.range bb.length).map (fun i =>
    Pm.initSingle i (bbAtomDists (bb.getD i default) (bb.getD i default)))

/-- Modelled from the spec: the structure-seeded pair features — an
arbitrary function of the residue index pair (relative-position
encoding) and the two residues' rigid-invariant inter-atom distances
(template pair features); outside the n×n tensor the seed carries a fixed
zero feature. -/
noncomputable def encoderSeedPair {F Q : Type} (Pm : EncoderParams F Q)
    (bb : List (V3 × V3 × V3)) : ℕ → ℕ → Q :=
  fun i j =>
    if i < bb.length ∧ j < bb.length then
      Pm.initPair i j (bbAtomDists (bb.getD i default) (bb.getD j default))
    else Pm.initPair i j (fun _ _ => 0)

/-- Modelled from the spec: the encoder trunk — pair/single seeding from
the structure, the coordinate-free Evoformer-style refinement
(`embedTrunk`), initial frames from N-CA-C backbone geometry, then
`num_layer` IPA iterations. -/
noncomputable def encoderTrunk {F Q : Type} [Inhabited F] (Pm : EncoderParams F Q)
    (mask : List Bool) (bb : List (V3 × V3 × V3)) : List F × List Rigid :=
  (ipaLayer Pm
      (Pm.embedTrunk mask (encoderSeedSingles Pm bb) (encoderSeedPair Pm bb)).2
      mask)^[Pm.num_layer]
    ((Pm.embedTrunk mask (encoderSeedSingles Pm bb) (encoderSeedPair Pm bb)).1,
      bb.map frameFromBB)

/-- Modelled from the spec: the encoder's output code ids — the VQ
arg-min over the ProToken codebook under `protoken_emb_distance_fn`,
applied to the projected final single features. -/
noncomputable def encoderCodeIds {F Q : Type} [Inhabited F] (Pm : EncoderParams F Q)
    (protoken_emb : List (List ℝ)) (mask : List Bool)
    (bb : List (V3 × V3 × V3)) : List ℕ :=
  (encoderTrunk Pm mask bb).1.map (fun f =>
    argminIdx (protoken_emb.map (fun c => protoken_emb_distance_fn (Pm.proj f) c)))

theorem getD_map_lt {α β : Type} (f : α → β) (l : List α) (i : ℕ)
    (h : i < l.length) (d : β) (d' : α) :
    (l.map f).getD i d = f (l.getD i d') := by
  rw [List.getD_eq_getElem _ _ (by simpa using h), List.getElem_map,
    ← List.getD_eq_getElem _ _ h]

theorem sum_pos_of_nonneg_of_pos_mem (l : List ℝ) (hnn : ∀ x ∈ l, 0 ≤ x)
    (x : ℝ) (hx : x ∈ l) (hp : 0 < x) : 0 < l.sum := by
  induction l with
  | nil => cases hx
  | cons a l ih =>
    rw [List.sum_cons]
    rcases List.mem_cons.mp hx with h | h
    · have hl : 0 ≤ l.sum :=
        List.sum_nonneg (fun y hy => hnn y (List.mem_cons_of_mem a hy))
      exact add_pos_of_pos_of_nonneg (h ▸ hp) hl
    · have ha : 0 ≤ a := hnn a (List.mem_cons_self a l)
      exact add_pos_of_nonneg_of_pos ha
        (ih (fun y hy => hnn y (List.mem_cons_of_mem a hy)) h)

theorem softmax_weights_nonneg (mask : List Bool) (L : List ℝ) :
    ∀ x ∈ List.zipWith (fun m l => if m then Real.exp l else 0) mask L, 0 ≤ x := by
  induction mask generalizing L with
  | nil => intro x hx; cases hx
  | cons m mask ih =>
    intro x hx
    cases L with
    | nil => cases hx
    | cons l L =>
      rcases List.mem_cons.mp hx with h | h
      · rw [h]
        by_cases hm : m = true
        · simp only [hm, if_true]
          exact le_of_lt (Real.exp_pos l)
        · simp [hm]
      · exact ih L x h

theorem maskedSoftmax_length (mask : List Bool) (L : List ℝ) :
    (maskedSoftmax mask L).length = min mask.length L.length := by
  rw [maskedSoftmax, List.length_map, List.length_zipWith]

theorem maskedSoftmax_sum (mask : List Bool) (L : List ℝ)
    (hex : ∃ j, j < mask.length ∧ j < L.length ∧ mask.getD j false = true) :
    (maskedSoftmax mask L).sum = 1 := by
  obtain ⟨j, hjm, hjl, hjt⟩ := hex
  have hjw : j < (List.zipWith (fun m l => if m then Real.exp l else 0) mask L).length := by
    rw [List.length_zipWith]
    omega
  have hentry : (List.zipWith (fun m l => if m then Real.exp l else 0) mask L).getD j 0 =
      Real.exp (L.getD j 0) := by
    rw [List.getD_eq_getElem _ _ hjw, List.getElem_zipWith,
      ← List.getD_eq_getElem mask false hjm, hjt, ← List.getD_eq_getElem L 0 hjl]
    rfl
  have hmem : (List.zipWith (fun m l => if m then Real.exp l else 0) mask L).getD j 0 ∈
      List.zipWith (fun m l => if m then Real.exp l else 0) mask L := by
    rw [List.getD_eq_getElem _ _ hjw]
    exact List.getElem_mem _
  have hpos : 0 < (List.zipWith (fun m l => if m then Real.exp l else 0) mask L).sum :=
    sum_pos_of_nonneg_of_pos_mem _ (softmax_weights_nonneg mask L) _ hmem
      (by rw [hentry]; exact Real.exp_pos _)
  rw [maskedSoftmax]
  have hdiv : ∀ S : ℝ, 0 < S →
      ((List.zipWith (fun m l => if m then Real.exp l else 0) mask L).map
        (fun x => x / S)).sum =
      (List.zipWith (fun m l => if m then Real.exp l else 0) mask L).sum / S := by
    intro S _
    induction List.zipWith (fun m l => if m then Real.exp l else 0) mask L with
    | nil => simp
    | cons a w ih =>
      rw [List.map_cons, List.sum_cons, List.sum_cons, ih, add_div]
  rw [hdiv _ hpos, div_self (ne_of_gt hpos)]

theorem zipWith_smul_affine_sum (M : M3) (t : V3) (as : List ℝ) (ps : List V3)
    (hlen : as.length = ps.length) :
    (List.zipWith (fun a q => a • (M.mulVec q + t)) as ps).sum =
      M.mulVec ((List.zipWith (fun a (q : V3) => a • q) as ps).sum) + as.sum • t := by
  induction as generalizing ps with
  | nil => simp
  | cons a as ih =>
    cases ps with
    | nil => simp at hlen
    | cons p ps =>
      have h' : as.length = ps.length := by simpa using hlen
      simp only [List.zipWith_cons_cons, List.sum_cons]
      rw [ih ps h', smul_add, Matrix.mulVec_add, Matrix.mulVec_smul, add_smul]
      abel

theorem wsum_applyRigid (G : Rigid) (as : List ℝ) (ps : List V3)
    (hlen : as.length = ps.length) (hsum : as.sum = 1) :
    (List.zipWith (fun a q => a • applyRigid G q) as ps).sum =
      applyRigid G ((List.zipWith (fun a (q : V3) => a • q) as ps).sum) := by
  simp only [applyRigid]
  rw [zipWith_smul_affine_sum G.rot G.trans as ps hlen, hsum, one_smul]

theorem atomOf_applyRigid (G : Rigid) (u : V3 × V3 × V3) (a : Fin 3) :
    atomOf (applyRigid G u.1, applyRigid G u.2.1, applyRigid G u.2.2) a =
      applyRigid G (atomOf u a) := by
  fin_cases a <;> rfl

theorem bbAtomDists_applyRigid (G : Rigid) (ho : G.rot.transpose * G.rot = 1)
    (u v : V3 × V3 × V3) :
    bbAtomDists (applyRigid G u.1, applyRigid G u.2.1, applyRigid G u.2.2)
      (applyRigid G v.1, applyRigid G v.2.1, applyRigid G v.2.2) = bbAtomDists u v := by
  funext a b
  rw [bbAtomDists, bbAtomDists, atomOf_applyRigid, atomOf_applyRigid,
    sqDist3_applyRigid G ho]

theorem ipaLogit_equivariant {F Q : Type} [Inhabited F] (Pm : EncoderParams F Q)
    (pair : ℕ → ℕ → Q) (s : List F) (frames : List Rigid) (G : Rigid)
    (ho : G.rot.transpose * G.rot = 1) (h : Fin Pm.num_head) (i j : ℕ)
    (hi : i < frames.length) (hj : j < frames.length) :
    ipaLogit Pm pair s (frames.map (fun T => composeRigid G T)) h i j =
      ipaLogit Pm pair s frames h i j := by
  rw [ipaLogit, ipaLogit, getD_map_lt _ frames i hi dRigid dRigid,
    getD_map_lt _ frames j hj dRigid dRigid]
  have hgeo : ∀ p : Fin Pm.num_point_qk,
      -(sqDist3
          (applyRigid (composeRigid G (frames.getD i dRigid)) (Pm.qpt h p (s.getD i default)))
          (applyRigid (composeRigid G (frames.getD j dRigid)) (Pm.kpt h p (s.getD j default)))) =
      -(sqDist3 (applyRigid (frames.getD i dRigid) (Pm.qpt h p (s.getD i default)))
          (applyRigid (frames.getD j dRigid) (Pm.kpt h p (s.getD j default)))) := by
    intro p
    rw [applyRigid_composeRigid, applyRigid_composeRigid, sqDist3_applyRigid G ho]
  rw [Finset.sum_congr rfl (fun p _ => hgeo p)]

theorem ipaAttn_equivariant {F Q : Type} [Inhabited F] (Pm : EncoderParams F Q)
    (pair : ℕ → ℕ → Q) (mask : List Bool) (s : List F) (frames : List Rigid) (G : Rigid)
    (ho : G.rot.transpose * G.rot = 1) (h : Fin Pm.num_head) (i : ℕ)
    (hsf : s.length = frames.length) (hi : i < frames.length) :
    ipaAttn Pm pair mask s (frames.map (fun T => composeRigid G T)) h i =
      ipaAttn Pm pair mask s frames h i := by
  rw [ipaAttn, ipaAttn]
  congr 1
  refine List.map_congr_left ?_
  intro j hj
  have hj' : j < frames.length := by
    rw [← hsf]
    exact List.mem_range.mp hj
  exact ipaLogit_equivariant Pm pair s frames G ho h i j hi hj'

theorem ipaScalarAgg_equivariant {F Q : Type} [Inhabited F] (Pm : EncoderParams F Q)
    (pair : ℕ → ℕ → Q) (mask : List Bool) (s : List F) (frames : List Rigid) (G : Rigid)
    (ho : G.rot.transpose * G.rot = 1) (h : Fin Pm.num_head) (i c : ℕ)
    (hsf : s.length = frames.length) (hi : i < frames.length) :
    ipaScalarAgg Pm pair mask s (frames.map (fun T => composeRigid G T)) h i c =
      ipaScalarAgg Pm pair mask s frames h i c := by
  rw [ipaScalarAgg, ipaScalarAgg,
    ipaAttn_equivariant Pm pair mask s frames G ho h i hsf hi]

theorem ipaPairAgg_equivariant {F Q : Type} [Inhabited F] (Pm : EncoderParams F Q)
    (pair : ℕ → ℕ → Q) (mask : List Bool) (s : List F) (frames : List Rigid) (G : Rigid)
    (ho : G.rot.transpose * G.rot = 1) (h : Fin Pm.num_head) (i c : ℕ)
    (hsf : s.length = frames.length) (hi : i < frames.length) :
    ipaPairAgg Pm pair mask s (frames.map (fun T => composeRigid G T)) h i c =
      ipaPairAgg Pm pair mask s frames h i c := by
  rw [ipaPairAgg, ipaPairAgg,
    ipaAttn_equivariant Pm pair mask s frames G ho h i hsf hi]

theorem ipaPointAgg_equivariant {F Q : Type} [Inhabited F] (Pm : EncoderParams F Q)
    (pair : ℕ → ℕ → Q) (mask : List Bool) (s : List F) (frames : List Rigid) (G : Rigid)
    (ho : G.rot.transpose * G.rot = 1) (h : Fin Pm.num_head) (p : Fin Pm.num_point_v)
    (i : ℕ) (hsf : s.length = frames.length) (hi : i < frames.length)
    (hml : s.length ≤ mask.length)
    (hex : ∃ j, j < s.length ∧ mask.getD j false = true) :
    ipaPointAgg Pm pair mask s (frames.map (fun T => composeRigid G T)) h p i =
      ipaPointAgg Pm pair mask s frames h p i := by
  rw [ipaPointAgg, ipaPointAgg,
    ipaAttn_equivariant Pm pair mask s frames G ho h i hsf hi,
    getD_map_lt _ frames i hi dRigid dRigid]
  set a := ipaAttn Pm pair mask s frames h i with ha
  set ps := (List.range s.length).map
    (fun j => applyRigid (frames.getD j dRigid) (Pm.vpt h p (s.getD j default))) with hps
  have hmaps : (List.range s.length).map
      (fun j => applyRigid ((frames.map (fun T => composeRigid G T)).getD j dRigid)
        (Pm.vpt h p (s.getD j default))) = ps.map (applyRigid G) := by
    rw [hps, List.map_map]
    refine List.map_congr_left ?_
    intro j hj
    have hj' : j < frames.length := by
      rw [← hsf]
      exact List.mem_range.mp hj
    rw [getD_map_lt _ frames j hj' dRigid dRigid, applyRigid_composeRigid]
    simp [Function.comp]
  have hzip1 : List.zipWith
      (fun x j => x • applyRigid ((frames.map (fun T => composeRigid G T)).getD j dRigid)
        (Pm.vpt h p (s.getD j default))) a (List.range s.length) =
      List.zipWith (fun x (q : V3) => x • q) a (ps.map (applyRigid G)) := by
    rw [← hmaps, List.zipWith_map_right]
  have hzip2 : List.zipWith
      (fun x j => x • applyRigid (frames.getD j dRigid) (Pm.vpt h p (s.getD j default)))
      a (List.range s.length) =
      List.zipWith (fun x (q : V3) => x • q) a ps := by
    rw [hps, List.zipWith_map_right]
  rw [hzip1, hzip2]
  have hsum1 : a.sum = 1 := by
    rw [ha, ipaAttn]
    obtain ⟨j, hjs, hjt⟩ := hex
    refine maskedSoftmax_sum mask _ ⟨j, lt_of_lt_of_le hjs hml, ?_, hjt⟩
    rw [List.length_map, List.length_range]
    exact hjs
  have hlen : a.length = ps.length := by
    rw [ha, ipaAttn, maskedSoftmax_length, hps]
    simp only [List.length_map, List.length_range]
    omega
  rw [List.zipWith_map_right, wsum_applyRigid G a ps hlen hsum1,
    invRigid_compose_apply G _ ho]

theorem ipaSingles_equivariant {F Q : Type} [Inhabited F] (Pm : EncoderParams F Q)
    (pair : ℕ → ℕ → Q) (mask : List Bool) (s : List F) (frames : List Rigid) (G : Rigid)
    (ho : G.rot.transpose * G.rot = 1) (hsf : s.length = frames.length)
    (hml : s.length ≤ mask.length)
    (hex : ∃ j, j < s.length ∧ mask.getD j false = true) :
    ipaSingles Pm pair mask s (frames.map (fun T => composeRigid G T)) =
      ipaSingles Pm pair mask s frames := by
  rw [ipaSingles, ipaSingles]
  refine List.map_congr_left ?_
  intro i hi
  have hi' : i < frames.length := by
    rw [← hsf]
    exact List.mem_range.mp hi
  have hA : (fun h => ipaScalarAgg Pm pair mask s
      (frames.map (fun T => composeRigid G T)) h i) =
      (fun h => ipaScalarAgg Pm pair mask s frames h i) := by
    funext h
    funext c
    exact ipaScalarAgg_equivariant Pm pair mask s frames G ho h i c hsf hi'
  have hB : (fun h => ipaPairAgg Pm pair mask s
      (frames.map (fun T => composeRigid G T)) h i) =
      (fun h => ipaPairAgg Pm pair mask s frames h i) := by
    funext h
    funext c
    exact ipaPairAgg_equivariant Pm pair mask s frames G ho h i c hsf hi'
  have hC : (fun h p => ipaPointAgg Pm pair mask s
      (frames.map (fun T => composeRigid G T)) h p i) =
      (fun h p => ipaPointAgg Pm pair mask s frames h p i) := by
    funext h
    funext p
    exact ipaPointAgg_equivariant Pm pair mask s frames G ho h p i hsf hi' hml hex
  rw [hA, hB, hC]

theorem ipaSingles_length {F Q : Type} [Inhabited F] (Pm : EncoderParams F Q)
    (pair : ℕ → ℕ → Q) (mask : List Bool) (s : List F) (frames : List Rigid) :
    (ipaSingles Pm pair mask s frames).length = s.length := by
  rw [ipaSingles, List.length_map, List.length_range]

theorem ipaLayer_lengths {F Q : Type} [Inhabited F] (Pm : EncoderParams F Q)
    (pair : ℕ → ℕ → Q) (mask : List Bool) (st : List F × List Rigid) :
    (ipaLayer Pm pair mask st).1.length = st.1.length ∧
    (ipaLayer Pm pair mask st).2.length = min st.1.length st.2.length := by
  constructor
  · rw [ipaLayer]
    exact ipaSingles_length Pm pair mask st.1 st.2
  · rw [ipaLayer]
    show (List.zipWith _ (ipaSingles Pm pair mask st.1 st.2) st.2).length = _
    rw [List.length_zipWith, ipaSingles_length]

theorem ipaLayer_equivariant {F Q : Type} [Inhabited F] (Pm : EncoderParams F Q)
    (pair : ℕ → ℕ → Q) (mask : List Bool) (s : List F) (frames : List Rigid) (G : Rigid)
    (ho : G.rot.transpose * G.rot = 1) (hsf : s.length = frames.length)
    (hml : s.length ≤ mask.length)
    (hex : ∃ j, j < s.length ∧ mask.getD j false = true) :
    ipaLayer Pm pair mask (s, frames.map (fun T => composeRigid G T)) =
      ((ipaLayer Pm pair mask (s, frames)).1,
        (ipaLayer Pm pair mask (s, frames)).2.map (fun T => composeRigid G T)) := by
  simp only [ipaLayer]
  rw [ipaSingles_equivariant Pm pair mask s frames G ho hsf hml hex]
  rw [List.zipWith_map_right, List.map_zipWith]
  have hfg : (fun (fi' : F) (Ti : Rigid) =>
      composeRigid (composeRigid G Ti) ⟨Pm.deltaRot fi', Pm.deltaTrans fi'⟩) =
      (fun (fi' : F) (Ti : Rigid) =>
      composeRigid G (composeRigid Ti ⟨Pm.deltaRot fi', Pm.deltaTrans fi'⟩)) := by
    funext fi' Ti
    rw [composeRigid_assoc]
  rw [hfg]

/-- Claim C6 (spec-modelled): for any global rotation `R` (orthogonal,
determinant 1) and translation `t` applied uniformly to all input
backbone coordinates, the encoder's output code ids — the VQ arg-min at
the end of the encode pipeline (structure-seeded then Evoformer-refined
representations, IPA layers with scalar/geometric/pair-bias logits and
masked softmax, frame composition updates) — are unchanged, for every
choice of the learned parameters, head/point counts and layer count, for
any mask covering the sequence with at least one unmasked position; in
exact real arithmetic the invariance is exact. -/
theorem encoder_code_ids_rigid_invariant {F Q : Type} [Inhabited F]
    (Pm : EncoderParams F Q) (pe : List (List ℝ)) (mask : List Bool) (G : Rigid)
    (hG : IsRotation G.rot) (bb : List (V3 × V3 × V3))
    (hml : bb.length ≤ mask.length)
    (hex : ∃ j, j < bb.length ∧ mask.getD j false = true) :
    encoderCodeIds Pm pe mask (bb.map (fun u =>
      (applyRigid G u.1, applyRigid G u.2.1, applyRigid G u.2.2))) =
      encoderCodeIds Pm pe mask bb := by
  have hbbl : (bb.map (fun u =>
      (applyRigid G u.1, applyRigid G u.2.1, applyRigid G u.2.2))).length = bb.length :=
    List.length_map _ _
  have hgetD : ∀ i, i < bb.length →
      (bb.map (fun u =>
        (applyRigid G u.1, applyRigid G u.2.1, applyRigid G u.2.2))).getD i default =
      (applyRigid G (bb.getD i default).1, applyRigid G (bb.getD i default).2.1,
        applyRigid G (bb.getD i default).2.2) :=
    fun i hi => getD_map_lt _ bb i hi default default
  have hseedS : encoderSeedSingles Pm (bb.map (fun u =>
      (applyRigid G u.1, applyRigid G u.2.1, applyRigid G u.2.2))) =
      encoderSeedSingles Pm bb := by
    rw [encoderSeedSingles, encoderSeedSingles, hbbl]
    refine List.map_congr_left ?_
    intro i hi
    have hi' : i < bb.length := List.mem_range.mp hi
    rw [hgetD i hi', bbAtomDists_applyRigid G hG.1]
  have hseedP : encoderSeedPair Pm (bb.map (fun u =>
      (applyRigid G u.1, applyRigid G u.2.1, applyRigid G u.2.2))) =
      encoderSeedPair Pm bb := by
    funext i j
    rw [encoderSeedPair, encoderSeedPair, hbbl]
    by_cases hij : i < bb.length ∧ j < bb.length
    · rw [if_pos hij, if_pos hij, hgetD i hij.1, hgetD j hij.2,
        bbAtomDists_applyRigid G hG.1]
    · rw [if_neg hij, if_neg hij]
  rw [encoderCodeIds, encoderCodeIds, encoderTrunk, encoderTrunk, hseedS, hseedP]
  have hframes : (bb.map (fun u =>
      (applyRigid G u.1, applyRigid G u.2.1, applyRigid G u.2.2))).map frameFromBB =
      (bb.map frameFromBB).map (fun T => composeRigid G T) := by
    rw [List.map_map, List.map_map]
    refine List.map_congr_left ?_
    intro u _
    exact frameFromBB_equivariant G hG u
  rw [hframes]
  set pair1 := (Pm.embedTrunk mask (encoderSeedSingles Pm bb) (encoderSeedPair Pm bb)).2
  set s1 := (Pm.embedTrunk mask (encoderSeedSingles Pm bb) (encoderSeedPair Pm bb)).1
    with hs1def
  have hs1 : s1.length = bb.length := by
    rw [hs1def, Pm.embedTrunk_length, encoderSeedSingles, List.length_map,
      List.length_range]
  have hfr1 : (bb.map frameFromBB).length = bb.length := List.length_map _ _
  have hiter : ∀ (k : ℕ) (s : List F) (fr : List Rigid),
      s.length = bb.length → fr.length = bb.length →
      (ipaLayer Pm pair1 mask)^[k] (s, fr.map (fun T => composeRigid G T)) =
        (((ipaLayer Pm pair1 mask)^[k] (s, fr)).1,
          ((ipaLayer Pm pair1 mask)^[k] (s, fr)).2.map (fun T => composeRigid G T)) := by
    intro k
    induction k with
    | zero =>
      intro s fr _ _
      simp
    | succ k ih =>
      intro s fr hs hf
      have hsf : s.length = fr.length := by omega
      have hml' : s.length ≤ mask.length := by omega
      have hex' : ∃ j, j < s.length ∧ mask.getD j false = true := by
        obtain ⟨j, hj1, hj2⟩ := hex
        exact ⟨j, by omega, hj2⟩
      have hlen := ipaLayer_lengths Pm pair1 mask (s, fr)
      rw [Function.iterate_succ_apply,
        ipaLayer_equivariant Pm pair1 mask s fr G hG.1 hsf hml' hex',
        ih (ipaLayer Pm pair1 mask (s, fr)).1 (ipaLayer Pm pair1 mask (s, fr)).2
          (by rw [hlen.1]; exact hs)
          (by rw [hlen.2]; show min s.length fr.length = bb.length; omega),
        Function.iterate_succ_apply]
  rw [hiter Pm.num_layer s1 (bb.map frameFromBB) hs1 hfr1]

/-- A non-degenerate parameter instance for the witness: real-valued
single and pair representations, the config's 12 heads, 4 query/key
points, 8 value points and 8 layers, structure-dependent seeds, and
aggregate-dependent update and projection. -/
noncomputable def encoderParamsW : EncoderParams ℝ ℝ :=
  { num_head := 12
    num_point_qk := 4
    num_point_v := 8
    num_layer := 8
    initSingle := fun i d => (i : ℝ) + d 0 1
    initPair := fun i j d => (i : ℝ) + 2 * (j : ℝ) + d 1 1
    embedTrunk := fun _ s pair => (s.map (fun f => 2 * f + 1), fun i j => pair i j + pair j i)
    embedTrunk_length := fun _ s _ => List.length_map s _
    scalarLogit := fun h fi fj => (h.val : ℝ) + fi * fj
    headWeight := fun h => (h.val : ℝ) + 1
    pointConst := 0.5
    qpt := fun h p f => ![f, (h.val : ℝ), (p.val : ℝ)]
    kpt := fun h p f => ![(p.val : ℝ), f, (h.val : ℝ)]
    vpt := fun h p f => ![f + (p.val : ℝ), (h.val : ℝ), 1]
    vscalar := fun h c f => f * (c : ℝ) + (h.val : ℝ)
    pairBias := fun h q => q + (h.val : ℝ)
    pairValue := fun h c q => q * (c : ℝ) + (h.val : ℝ)
    updateSingle := fun f sc pa pt => f + sc 0 0 + pa 0 1 + pt 0 0 0
    deltaRot := fun _ => 1
    deltaTrans := fun f => ![f, 0, 0]
    proj := fun f => [f, 2 * f] }

noncomputable def GW : Rigid := ⟨!![0, -1, 0; 1, 0, 0; 0, 0, 1], ![5, 6, 7]⟩

theorem GW_rotation : IsRotation GW.rot := by
  constructor
  · have ht : GW.rot.transpose = !![0, 1, 0; -1, 0, 0; 0, 0, 1] := by
      ext i j
      fin_cases i <;> fin_cases j <;>
        simp [GW, Matrix.transpose_apply, Matrix.vecHead, Matrix.vecTail]
    rw [ht, show GW.rot = !![0, -1, 0; 1, 0, 0; 0, 0, 1] from rfl, Matrix.mul_fin_three]
    norm_num
    ext i j
    fin_cases i <;> fin_cases j <;>
      simp [Matrix.one_apply, Matrix.vecHead, Matrix.vecTail]
  · rw [show GW.rot = !![0, -1, 0; 1, 0, 0; 0, 0, 1] from rfl, Matrix.det_fin_three]
    norm_num [Matrix.vecHead, Matrix.vecTail]

/-- Witness for C6: a quarter-turn rotation with translation `(5,6,7)`
applied to a concrete one-residue backbone, under the non-degenerate
parameters `encoderParamsW` and mask `[true]`. -/
theorem encoder_code_ids_rigid_invariant_witness :
    IsRotation GW.rot ∧
    ([((![1, 0, 0] : V3), (![0, 0, 0] : V3), (![0, 1, 0] : V3))] :
        List (V3 × V3 × V3)).length ≤ ([true] : List Bool).length ∧
    (∃ j, j < ([((![1, 0, 0] : V3), (![0, 0, 0] : V3), (![0, 1, 0] : V3))] :
        List (V3 × V3 × V3)).length ∧ ([true] : List Bool).getD j false = true) ∧
    encoderCodeIds encoderParamsW [[(1:ℝ)]] [true]
        (([((![1, 0, 0] : V3), (![0, 0, 0] : V3), (![0, 1, 0] : V3))] :
            List (V3 × V3 × V3)).map (fun u =>
          (applyRigid GW u.1, applyRigid GW u.2.1, applyRigid GW u.2.2))) =
      encoderCodeIds encoderParamsW [[(1:ℝ)]] [true]
        [((![1, 0, 0] : V3), (![0, 0, 0] : V3), (![0, 1, 0] : V3))] :=
  ⟨GW_rotation, Nat.le_refl 1, ⟨0, Nat.zero_lt_one, rfl⟩,
    encoder_code_ids_rigid_invariant encoderParamsW [[(1:ℝ)]] [true] GW GW_rotation
      [((![1, 0, 0] : V3), (![0, 0, 0] : V3), (![0, 1, 0] : V3))]
      (Nat.le_refl 1) ⟨0, Nat.zero_lt_one, rfl⟩⟩

end ProToken
